import Mathlib

/-!
# ksolve: block legality check and the per-scramble search driver

Shallow embedding of `source/blocks.h` (`blocklegal`) and of the control flow
of `source/main.cpp` (`ksolveMain`, `main`).

Conventions of the embedding.

* A `std::map<string, T>` is a list of `(label, value)` entries in iteration
  order; looking a label up returns the first entry carrying it.
* A `std::set<int>` is a list of its members.
* An array is a `List Int`; reading a slot that the array does not have is
  undefined behaviour in the source and is the result `none` here.  A function
  that reads arrays therefore returns an `Option`, and the theorems state
  under which conditions on the input it returns `some` result.
* C++ `int` values are `Int`.  The two counters of the search driver, `depth`
  and `usedSlack`, are incremented without a bound check in the source; an
  increment that leaves the 32-bit range wraps around (`wrapInt`).  The slot
  index `i + 1` of `blocklegal` stays below an orbit size and cannot overflow.
* The driver loop `while(1)` need not come to an end.  The embedding runs at
  most `fuel` iterations of it and gives the trace up to there together with
  a flag telling whether the loop has been left.
* The local map `changed` of `blocklegal` is indexed with `operator[]` in the
  second loop nest as well; this can only add empty sets to it, which no
  `find` distinguishes from an absent label, and the local is dropped on
  return.  The embedding reads `changed[L]` as the empty set when `L` has no
  entry.
-/

namespace ksolve

/-! ## Data model -/

/-- Modelled from the spec: the per-orbit record of `data.h` (not among the
sources), with the three fields `blocklegal` reads: `size`, `permutation`,
`orientation`. -/
structure PieceSet where
  size : Int
  permutation : List Int
  orientation : List Int
deriving DecidableEq, Repr

/-- The value a `std::map` default-constructs on `operator[]` for an absent
label: size 0 and no array entries. -/
instance : Inhabited PieceSet := ⟨⟨0, [], []⟩⟩

/-- Modelled from the spec: `Position`, a mapping from piece-type label to
`PieceSet` (`std::map<string, ...>` in the source). -/
abbrev Position := List (String × PieceSet)

/-- Modelled from the spec: `Block`, a mapping from piece-type label to a set
of piece identities (`std::map<string, std::set<int>>`). -/
abbrev Block := List (String × List Int)

/-- Read-only lookup of a label (`find`). -/
def lookup {β : Type} (L : String) : List (String × β) → Option β
  | [] => none
  | (k, v) :: rest => if k = L then some v else lookup L rest

/-- The access `state[L]` on a non-const `Position` (`std::map::operator[]`):
the entry of `L`, and the map after the access.  An absent label is inserted
with a default-constructed entry (where in the iteration order it lands plays
no part in `blocklegal`, which does not iterate over the state). -/
def Position.index (state : Position) (L : String) : PieceSet × Position :=
  match lookup L state with
  | some ps => (ps, state)
  | none => (default, state ++ [(L, default)])

/-- The members of `changed[L]` (the empty set when `L` has no entry). -/
def Block.pieces (b : Block) (L : String) : List Int :=
  (lookup L b).getD []

/-- The statement `changed[L].insert(p)`. -/
def Block.insertPiece : Block → String → Int → Block
  | [], L, p => [(L, [p])]
  | (k, s) :: rest, L, p =>
    if k = L then (k, if p ∈ s then s else p :: s) :: rest
    else (k, s) :: Block.insertPiece rest L p

/-! ## `blocklegal` (blocks.h) -/

/-- Body of the inner loop of `blocklegal` (lines 31-34) at slot `i` of the
move's orbit `L`: when the move changes the slot, or keeps it and twists it,
the piece the state holds there is recorded in `changed`. -/
def recordSlot (L : String) (ms : PieceSet) (i : Nat) (acc : Block × Position) :
    Option (Block × Position) :=
  match ms.permutation[i]? with
  | none => none
  | some mp =>
    if mp ≠ (i : Int) + 1 then
      match (acc.2.index L).1.permutation[i]? with
      | none => none
      | some p => some (acc.1.insertPiece L p, (acc.2.index L).2)
    else
      match ms.orientation[i]? with
      | none => none
      | some mo =>
        if mo ≠ 0 then
          match (acc.2.index L).1.permutation[i]? with
          | none => none
          | some p => some (acc.1.insertPiece L p, (acc.2.index L).2)
        else some acc

/-- The inner loop `for (int i = 0; i < setsize; i++)`, over the slots still
to visit. -/
def recordSlots (L : String) (ms : PieceSet) : List Nat → Block × Position →
    Option (Block × Position)
  | [], acc => some acc
  | i :: is, acc =>
    match recordSlot L ms i acc with
    | none => none
    | some acc' => recordSlots L ms is acc'

/-- The outer loop over the orbits of the move (lines 28-36). -/
def recordOrbits : Position → Block × Position → Option (Block × Position)
  | [], acc => some acc
  | (L, ms) :: rest, acc =>
    match recordSlots L ms (List.range ms.size.toNat) acc with
    | none => none
    | some acc' => recordOrbits rest acc'

/-- First half of `blocklegal`: the set `changed` of disturbed piece
identities, and the state map after the accesses. -/
def computeChanged (state move : Position) : Option (Block × Position) :=
  recordOrbits move ([], state)

/-- Lines 47-52 for one set of a block: updates `(block_moved,
block_stationary)` for each piece of the set. -/
def classifyPieces (changed : Block) (L : String) : List Int → Bool × Bool → Bool × Bool
  | [], flags => flags
  | p :: ps, flags =>
    if p ∈ changed.pieces L then classifyPieces changed L ps (flags.1, false)
    else classifyPieces changed L ps (false, flags.2)

/-- Lines 46-53: the loop over the orbit entries of one block. -/
def classifyBlock (changed : Block) : Block → Bool × Bool → Bool × Bool
  | [], flags => flags
  | (L, s) :: rest, flags => classifyBlock changed rest (classifyPieces changed L s flags)

/-- Lines 41-57: the loop over the blocks, returning `false` at the first
block that is neither fully moved nor fully stationary. -/
def checkBlocks (changed : Block) : List Block → Bool
  | [] => true
  | test :: rest =>
    let flags := classifyBlock changed test (true, true)
    if !flags.1 && !flags.2 then false else checkBlocks changed rest

/-- The function `blocklegal(state, blocks, move)`: its return value together
with the state map as the call leaves it; `none` when the call reads an array
slot that does not exist. -/
def blocklegal (state : Position) (blocks : List Block) (move : Position) :
    Option (Bool × Position) :=
  match computeChanged state move with
  | none => none
  | some (changed, state') => some (checkBlocks changed blocks, state')

/-! ## Auxiliary notions used to state the properties of `blocklegal` -/

/-- What the move does at slot `i` of one of its orbits, as `blocklegal` tests
it: `some true` when the slot is disturbed (`permutation[i] != i+1`, or kept in
place with `orientation[i] != 0`), `some false` when it is left alone, `none`
when the test reads a slot the move's arrays do not have. -/
def touches (ms : PieceSet) (i : Nat) : Option Bool :=
  match ms.permutation[i]? with
  | none => none
  | some mp =>
    if mp ≠ (i : Int) + 1 then some true
    else
      match ms.orientation[i]? with
      | none => none
      | some mo => some (decide (mo ≠ 0))

/-- The value of `state[L].permutation[i]`, when the state has the label and
the slot. -/
def Position.entry (state : Position) (L : String) (i : Nat) : Option Int :=
  match lookup L state with
  | some ss => ss.permutation[i]?
  | none => none

/-- Every array access of `blocklegal state _ move` is in range: each orbit
label of the move is a label of the state, and the move's two arrays and the
state's permutation array of that orbit have at least `size` slots. -/
def slotsValid (state move : Position) : Bool :=
  move.all fun e =>
    decide (e.2.size.toNat ≤ e.2.permutation.length) &&
    decide (e.2.size.toNat ≤ e.2.orientation.length) &&
    match lookup e.1 state with
    | some ss => decide (e.2.size.toNat ≤ ss.permutation.length)
    | none => false

/-- The piece identity `p` of orbit `L` is disturbed by `move` in `state`: some
slot `i < move[L].size` holds it (`state[L].permutation[i] = p`) and the move
changes that slot (`move[L].permutation[i] != i+1` or
`move[L].orientation[i] != 0`). -/
def disturbed (state move : Position) (L : String) (p : Int) : Prop :=
  ∃ ms ss, lookup L move = some ms ∧ lookup L state = some ss ∧
    ∃ i : Nat, (i : Int) < ms.size ∧ ss.permutation[i]? = some p ∧
      (ms.permutation[i]? ≠ some ((i : Int) + 1) ∨ ms.orientation[i]? ≠ some 0)

/-- The piece identity `p` of orbit `L` is a member of the block `b`. -/
def isMember (b : Block) (L : String) (p : Int) : Prop :=
  ∃ S, (L, S) ∈ b ∧ p ∈ S

/-- Every member of the block, over all of its orbit labels, is disturbed. -/
def fullyDisturbed (state move : Position) (b : Block) : Prop :=
  ∀ L p, isMember b L p → disturbed state move L p

/-- No member of the block is disturbed. -/
def fullyStationary (state move : Position) (b : Block) : Prop :=
  ∀ L p, isMember b L p → ¬ disturbed state move L p

/-- The list `perm` is a bijection on `{1..n}`: a rearrangement of
`1, 2, ..., n`. -/
def isBijection (perm : List Int) (n : Nat) : Prop :=
  List.Perm perm ((List.range' 1 n).map Int.ofNat)

/-- Every entry of the orientation array lies in `[0, k)`, and there are `n`
of them. -/
def orientationsIn (orient : List Int) (n : Nat) (k : Int) : Prop :=
  orient.length = n ∧ ∀ o ∈ orient, 0 ≤ o ∧ o < k

/-! ## `compose` (spec 4.1) -/

/-- Read of slot `j` of an array by an `int` index, `d` outside the array. -/
def readAt (l : List Int) (j : Int) (d : Int) : Int :=
  if j < 0 then d else l.getD j.toNat d

/-- Modelled from the spec: `compose` on one orbit (its code, `move.h`, is not
among the sources).  The result's permutation at slot `i` is
`base.permutation[move.permutation[i] - 1]`, the wildcard `-1` when an operand
is `-1`; its orientation at slot `i` is
`(base.orientation[move.permutation[i] - 1] + move.orientation[i]) mod k`. -/
def composeSet (k : Int) (base move : PieceSet) : PieceSet where
  size := base.size
  permutation := move.permutation.map fun m =>
    if m = -1 then -1 else readAt base.permutation (m - 1) (-1)
  orientation := List.zipWith
    (fun m o => (readAt base.orientation (m - 1) 0 + o) % k)
    move.permutation move.orientation

/-- Modelled from the spec: `compose(base, move)`, orbit by orbit, with `k L`
the orientation modulus of orbit `L`. -/
def compose (k : String → Int) (base move : Position) : Position :=
  base.map fun e =>
    match lookup e.1 move with
    | some ms => (e.1, composeSet (k e.1) e.2 ms)
    | none => e

/-- The slot that holds piece `p` in a permutation array, if any. -/
def slotOf (perm : List Int) (p : Int) : Option Nat :=
  if p ∈ perm then some (perm.indexOf p) else none

/-- The orientation of piece `p`: the orientation entry of the slot that
holds it. -/
def orientationOf (ps : PieceSet) (p : Int) : Option Int :=
  match slotOf ps.permutation p with
  | some j => ps.orientation[j]?
  | none => none

/-- The slot or the orientation of piece `p` differs between two values of an
orbit. -/
def pieceChanged (before after : PieceSet) (p : Int) : Prop :=
  slotOf after.permutation p ≠ slotOf before.permutation p ∨
    orientationOf after p ≠ orientationOf before p

/-! ## `ksolveMain` and `main` (main.cpp) -/

/-- Modelled from the spec: `ScrambleDef` (declared in `data.h`, not among the
sources), with the fields `ksolveMain` reads. -/
structure ScrambleDef where
  name : String
  state : Position
  ignore : Position
  max_depth : Int
  slack : Int
  metric : Int
  printState : Int
deriving DecidableEq

/-- What `ksolveMain` does that is visible from outside: the lines it prints
and its calls of `treeSolve` and `godTable`. -/
inductive Event where
  | usage
  | rulesetLoaded
  | generatedMoves
  | pruningTablesLoaded
  | godTableCall (metric : Int)
  | scramblesLoaded
  | solving (name : String)
  | scramblePosition (state : Position)
  | unknownWarning
  | depthLine (depth : Int)
  | treeSolveCall (state ignore : Position) (blocks : List Block) (depth metric : Int)
  | maxDepthAbort
  | blankLine
  | time
deriving DecidableEq

/-- The type of `treeSolve` (`search.h`, not among the sources) in the
arguments that vary between calls: state, ignore mask, blocks, target depth and
metric.  The ruleset-wide arguments are fixed for a run. -/
abbrev TreeSolve := Position → Position → List Block → Int → Int → Bool

/-- The value of `EXIT_SUCCESS`. -/
def EXIT_SUCCESS : Int := 0

/-- The value of `EXIT_FAILURE`. -/
def EXIT_FAILURE : Int := 1

/-- Lines 134-138: the scan of one orbit for `-1` entries. -/
def scanOrbit (ps : PieceSet) : List Nat → Bool → Option Bool
  | [], hasUndefined => some hasUndefined
  | i :: is, hasUndefined =>
    match ps.permutation[i]? with
    | none => none
    | some v => scanOrbit ps is (if v = -1 then true else hasUndefined)

/-- Lines 132-139: the scan of all orbits of the scramble state. -/
def scanState : Position → Bool → Option Bool
  | [], hasUndefined => some hasUndefined
  | (_, ps) :: rest, hasUndefined =>
    match scanOrbit ps (List.range ps.size.toNat) hasUndefined with
    | none => none
    | some h => scanState rest h

/-- Lines 128-143: what the undefined-permutation check prints. -/
def warningCheck (blocks : List Block) (state : Position) : Option (List Event) :=
  if blocks.length ≠ 0 then
    match scanState state false with
    | none => none
    | some hasUndefined => some (if hasUndefined then [Event.unknownWarning] else [])
  else some []

/-- The value an `int` variable holds after an increment whose exact result
is `x`: `x` itself inside the 32-bit range, and the two's-complement
wrap-around of `x` outside it. -/
def wrapInt (x : Int) : Int :=
  (x + 2147483648) % 4294967296 - 2147483648

/-- Lines 149-161: the loop `while(1)` of the tree search, from the values of
`depth` and `usedSlack` at the head of an iteration; `out` is what has been
printed and called so far.  At most `fuel` iterations are run: the result is
the trace up to there, and whether the loop has been left. -/
def searchLoop (treeSolve : TreeSolve) (blocks : List Block) (sc : ScrambleDef) :
    Nat → Int → Int → List Event → List Event × Bool
  | 0, _, _, out => (out, false)
  | fuel + 1, depth, usedSlack, out =>
    let foundSolution := treeSolve sc.state sc.ignore blocks depth sc.metric
    let out1 := out ++ [Event.treeSolveCall sc.state sc.ignore blocks depth sc.metric]
    let counted := foundSolution || decide (usedSlack > 0)
    let usedSlack1 := if counted then wrapInt (usedSlack + 1) else usedSlack
    if counted && decide (usedSlack1 > sc.slack) then (out1, true)
    else if wrapInt (depth + 1) > sc.max_depth then (out1 ++ [Event.maxDepthAbort], true)
    else searchLoop treeSolve blocks sc fuel (wrapInt (depth + 1)) usedSlack1
      (out1 ++ [Event.depthLine (wrapInt (depth + 1))])

/-- Lines 116-162: the body of the loop over the scrambles, for one scramble:
the trace, and whether the body has been run to its end. -/
def solveScramble (treeSolve : TreeSolve) (blocks : List Block) (sc : ScrambleDef)
    (fuel : Nat) : Option (List Event × Bool) :=
  let out := Event.solving sc.name ::
    (if sc.printState = 1 then [Event.scramblePosition sc.state] else [])
  match warningCheck blocks sc.state with
  | none => none
  | some w =>
    match searchLoop treeSolve blocks sc fuel 0 0 (out ++ w ++ [Event.depthLine 0]) with
    | (out1, true) => some (out1 ++ [Event.blankLine], true)
    | (out1, false) => some (out1, false)

/-- Lines 113-165: the loop over the scrambles `getScramble` delivers, which
ends at the first one whose state is empty: the trace, and whether the loop
has been left. -/
def solveScrambles (treeSolve : TreeSolve) (blocks : List Block) (fuel : Nat) :
    List ScrambleDef → Option (List Event × Bool)
  | [] => some ([], true)
  | sc :: rest =>
    if sc.state.length ≠ 0 then
      match solveScramble treeSolve blocks sc fuel with
      | none => none
      | some (out, false) => some (out, false)
      | some (out, true) =>
        match solveScrambles treeSolve blocks fuel rest with
        | none => none
        | some (outs, ended) => some (out ++ outs, ended)
    else some ([], true)

/-- What the loaders (`readdef.h`, `readscramble.h`, not among the sources)
deliver for the two file arguments: the blocks of the ruleset, whether the
second argument selects a God's-algorithm table (`some 0` for "!", `some 1`
for "!q"), and the scrambles in the order `getScramble` returns them. -/
structure Loaded where
  blocks : List Block
  godMetric : Option Int
  scrambles : List ScrambleDef

/-- The function `ksolve::ksolveMain`: the value it returns, if it has
returned, and what it printed and called. -/
def ksolveMain (treeSolve : TreeSolve) (loaded : Loaded) (fuel : Nat) (argc : Int) :
    Option (Option Int × List Event) :=
  if argc ≠ 3 then some (some EXIT_FAILURE, [Event.usage])
  else
    let out := [Event.rulesetLoaded, Event.generatedMoves, Event.pruningTablesLoaded]
    match loaded.godMetric with
    | some m => some (some EXIT_SUCCESS, out ++ [Event.godTableCall m, Event.time])
    | none =>
      match solveScrambles treeSolve loaded.blocks fuel loaded.scrambles with
      | none => none
      | some (outs, false) => some (none, out ++ [Event.scramblesLoaded] ++ outs)
      | some (outs, true) =>
        some (some EXIT_SUCCESS, out ++ [Event.scramblesLoaded] ++ outs ++ [Event.time])

/-- The function `main`: it calls `ksolveMain`, drops the value it returns and
reaches its closing brace, which for `main` is `return 0`. -/
def main (treeSolve : TreeSolve) (loaded : Loaded) (fuel : Nat) (argc : Int) :
    Option (Option Int × List Event) :=
  match ksolveMain treeSolve loaded fuel argc with
  | none => none
  | some (none, out) => some (none, out)
  | some (some _, out) => some (some 0, out)

/-- The target depths of the `treeSolve` calls of a trace, in order. -/
def searchedDepths : List Event → List Int
  | [] => []
  | Event.treeSolveCall _ _ _ depth _ :: rest => depth :: searchedDepths rest
  | _ :: rest => searchedDepths rest

/-- The `treeSolve` calls of a trace, in order. -/
def treeSolveCalls : List Event → List Event
  | [] => []
  | Event.treeSolveCall s i b d m :: rest =>
    Event.treeSolveCall s i b d m :: treeSolveCalls rest
  | _ :: rest => treeSolveCalls rest

/-- Every orbit of the state has at least `size` permutation slots. -/
def orbitsValid (state : Position) : Bool :=
  state.all fun e => decide (e.2.size.toNat ≤ e.2.permutation.length)

/-! ## Lemmas on the map operations -/

theorem lookup_mem {β : Type} (L : String) (l : List (String × β)) (v : β)
    (h : lookup L l = some v) : (L, v) ∈ l := by
  induction l with
  | nil => simp [lookup] at h
  | cons e rest ih =>
    obtain ⟨k, w⟩ := e
    by_cases hk : k = L
    · simp [lookup, hk] at h
      simp [hk, h]
    · simp [lookup, hk] at h
      exact List.mem_cons_of_mem _ (ih h)

theorem lookup_of_mem {β : Type} (L : String) (l : List (String × β)) (v : β)
    (hnd : (l.map Prod.fst).Nodup) (h : (L, v) ∈ l) : lookup L l = some v := by
  induction l with
  | nil => simp at h
  | cons e rest ih =>
    obtain ⟨k, w⟩ := e
    simp only [List.map_cons, List.nodup_cons] at hnd
    rcases List.mem_cons.1 h with heq | hmem
    · simp only [Prod.mk.injEq] at heq
      simp [lookup, heq.1, heq.2]
    · have hne : k ≠ L := by
        intro hk
        apply hnd.1
        rw [hk]
        exact List.mem_map_of_mem Prod.fst hmem
      simp [lookup, hne, ih hnd.2 hmem]

theorem pieces_insertPiece (c : Block) (L : String) (q : Int) (K : String) (p : Int) :
    p ∈ (c.insertPiece L q).pieces K ↔ (K = L ∧ p = q) ∨ p ∈ c.pieces K := by
  induction c with
  | nil =>
    by_cases h : L = K
    · simp [Block.insertPiece, Block.pieces, lookup, h]
    · have h2 : ¬ K = L := fun e => h e.symm
      simp [Block.insertPiece, Block.pieces, lookup, h, h2]
  | cons e rest ih =>
    obtain ⟨k, s⟩ := e
    by_cases hk : k = L
    · subst hk
      by_cases hK : k = K
      · subst hK
        by_cases hq : q ∈ s
        · simp only [Block.insertPiece, Block.pieces, lookup, if_true, hq, Option.getD_some,
            true_and]
          constructor
          · intro h; exact Or.inr h
          · rintro (h | h)
            · rw [h]; exact hq
            · exact h
        · simp [Block.insertPiece, Block.pieces, lookup, hq]
      · have h2 : ¬ K = k := fun e => hK e.symm
        simp [Block.insertPiece, Block.pieces, lookup, hK, h2]
    · by_cases hK : k = K
      · subst hK
        have h2 : ¬ k = L := hk
        simp [Block.insertPiece, Block.pieces, lookup, hk]
      · simp only [Block.insertPiece, hk, if_false, Block.pieces, lookup, hK]
        exact ih

theorem index_entry (state : Position) (L : String) (i : Nat) :
    (state.index L).1.permutation[i]? = state.entry L i := by
  unfold Position.index Position.entry
  cases lookup L state with
  | none => simp [default]
  | some ss => simp

theorem index_state (state : Position) (L : String) (i : Nat) (p : Int)
    (h : state.entry L i = some p) : (state.index L).2 = state := by
  unfold Position.index
  unfold Position.entry at h
  cases hl : lookup L state with
  | none => simp [hl] at h
  | some ss => simp

/-- Normal form of one iteration of the inner loop. -/
theorem recordSlot_eq (L : String) (ms : PieceSet) (i : Nat) (c : Block) (s : Position) :
    recordSlot L ms i (c, s) =
      match touches ms i with
      | none => none
      | some false => some (c, s)
      | some true => (s.entry L i).map (fun p => (c.insertPiece L p, s)) := by
  have key : (match (s.index L).1.permutation[i]? with
        | none => none
        | some p => some (c.insertPiece L p, (s.index L).2))
      = (s.entry L i).map (fun p => (c.insertPiece L p, s)) := by
    rw [index_entry]
    cases he : s.entry L i with
    | none => rfl
    | some p => simp [index_state s L i p he]
  unfold recordSlot touches
  cases hp : ms.permutation[i]? with
  | none => rfl
  | some mp =>
    dsimp only
    by_cases h1 : mp ≠ (i : Int) + 1
    · rw [if_pos h1, if_pos h1]
      exact key
    · rw [if_neg h1, if_neg h1]
      cases ho : ms.orientation[i]? with
      | none => rfl
      | some mo =>
        dsimp only
        by_cases h2 : mo ≠ 0
        · rw [if_pos h2]
          have hd : decide (mo ≠ 0) = true := decide_eq_true h2
          rw [hd]
          exact key
        · rw [if_neg h2]
          simp [h2]

/-! ## The first loop nest: frame, content of `changed`, definedness -/

theorem recordSlots_cons (L : String) (ms : PieceSet) (i : Nat) (is : List Nat) (c : Block)
    (s : Position) :
    recordSlots L ms (i :: is) (c, s) =
      match touches ms i with
      | none => none
      | some false => recordSlots L ms is (c, s)
      | some true =>
        match s.entry L i with
        | none => none
        | some p => recordSlots L ms is (c.insertPiece L p, s) := by
  rw [recordSlots, recordSlot_eq]
  cases touches ms i with
  | none => rfl
  | some b =>
    cases b with
    | false => rfl
    | true =>
      cases s.entry L i with
      | none => rfl
      | some p => rfl

theorem recordSlots_spec (L : String) (ms : PieceSet) (is : List Nat) (c : Block)
    (s : Position) (c' : Block) (s' : Position)
    (h : recordSlots L ms is (c, s) = some (c', s')) :
    s' = s ∧ ∀ K p, p ∈ c'.pieces K ↔
      p ∈ c.pieces K ∨ (K = L ∧ ∃ i ∈ is, touches ms i = some true ∧ s.entry L i = some p) := by
  induction is generalizing c with
  | nil =>
    simp only [recordSlots, Option.some.injEq, Prod.mk.injEq] at h
    obtain ⟨rfl, rfl⟩ := h
    simp
  | cons i is ih =>
    rw [recordSlots_cons] at h
    cases ht : touches ms i with
    | none => simp [ht] at h
    | some b =>
      cases b with
      | false =>
        simp only [ht] at h
        obtain ⟨h1, h2⟩ := ih c h
        refine ⟨h1, fun K p => ?_⟩
        rw [h2 K p]
        simp [ht]
      | true =>
        simp only [ht] at h
        cases he : s.entry L i with
        | none => simp [he] at h
        | some q =>
          simp only [he] at h
          obtain ⟨h1, h2⟩ := ih _ h
          refine ⟨h1, fun K p => ?_⟩
          rw [h2 K p, pieces_insertPiece]
          constructor
          · rintro ((⟨hK, hp⟩ | hc) | ⟨hK, j, hj, hjt, hje⟩)
            · exact Or.inr ⟨hK, i, List.mem_cons_self _ _, ht, by rw [he, hp]⟩
            · exact Or.inl hc
            · exact Or.inr ⟨hK, j, List.mem_cons_of_mem _ hj, hjt, hje⟩
          · rintro (hc | ⟨hK, j, hj, hjt, hje⟩)
            · exact Or.inl (Or.inr hc)
            · rcases List.mem_cons.1 hj with hji | hj
              · subst hji
                rw [he] at hje
                exact Or.inl (Or.inl ⟨hK, (Option.some.inj hje).symm⟩)
              · exact Or.inr ⟨hK, j, hj, hjt, hje⟩

theorem recordSlots_some (L : String) (ms : PieceSet) (is : List Nat) (c : Block)
    (s : Position)
    (h : ∀ i ∈ is, touches ms i ≠ none ∧ s.entry L i ≠ none) :
    ∃ c', recordSlots L ms is (c, s) = some (c', s) := by
  induction is generalizing c with
  | nil => exact ⟨c, rfl⟩
  | cons i is ih =>
    have hi := h i (List.mem_cons_self _ _)
    have hrest : ∀ j ∈ is, touches ms j ≠ none ∧ s.entry L j ≠ none :=
      fun j hj => h j (List.mem_cons_of_mem _ hj)
    rw [recordSlots_cons]
    cases ht : touches ms i with
    | none => exact absurd ht hi.1
    | some b =>
      cases b with
      | false => exact ih c hrest
      | true =>
        cases he : s.entry L i with
        | none => exact absurd he hi.2
        | some q => exact ih _ hrest

theorem recordSlots_congr (L : String) (ms : PieceSet) (is : List Nat) (c : Block)
    (s1 s2 : Position)
    (h : ∀ i ∈ is, touches ms i = some true → s1.entry L i = s2.entry L i) :
    (recordSlots L ms is (c, s1)).map Prod.fst = (recordSlots L ms is (c, s2)).map Prod.fst := by
  induction is generalizing c with
  | nil => rfl
  | cons i is ih =>
    have hrest : ∀ j ∈ is, touches ms j = some true → s1.entry L j = s2.entry L j :=
      fun j hj => h j (List.mem_cons_of_mem _ hj)
    rw [recordSlots_cons, recordSlots_cons]
    cases ht : touches ms i with
    | none => rfl
    | some b =>
      cases b with
      | false => exact ih c hrest
      | true =>
        rw [← h i (List.mem_cons_self _ _) ht]
        cases he : s1.entry L i with
        | none => rfl
        | some q => exact ih _ hrest

theorem recordOrbits_spec (move : Position) (c : Block) (s : Position) (c' : Block)
    (s' : Position) (h : recordOrbits move (c, s) = some (c', s')) :
    s' = s ∧ ∀ K p, p ∈ c'.pieces K ↔
      p ∈ c.pieces K ∨ ∃ ms, (K, ms) ∈ move ∧ ∃ i, i < ms.size.toNat ∧
        touches ms i = some true ∧ s.entry K i = some p := by
  induction move generalizing c with
  | nil =>
    simp only [recordOrbits, Option.some.injEq, Prod.mk.injEq] at h
    obtain ⟨rfl, rfl⟩ := h
    simp
  | cons e rest ih =>
    obtain ⟨L, ms⟩ := e
    rw [recordOrbits] at h
    cases hr : recordSlots L ms (List.range ms.size.toNat) (c, s) with
    | none => simp [hr] at h
    | some acc =>
      obtain ⟨c1, s1⟩ := acc
      simp only [hr] at h
      obtain ⟨hs1, hc1⟩ := recordSlots_spec L ms _ c s c1 s1 hr
      subst hs1
      obtain ⟨h1, h2⟩ := ih c1 h
      refine ⟨h1, fun K p => ?_⟩
      rw [h2 K p, hc1 K p]
      constructor
      · rintro ((hc | ⟨hK, i, hi, hit, hie⟩) | ⟨ms2, hm, i, hi, hit, hie⟩)
        · exact Or.inl hc
        · subst hK
          exact Or.inr ⟨ms, List.mem_cons_self _ _, i, List.mem_range.1 hi, hit, hie⟩
        · exact Or.inr ⟨ms2, List.mem_cons_of_mem _ hm, i, hi, hit, hie⟩
      · rintro (hc | ⟨ms2, hm, i, hi, hit, hie⟩)
        · exact Or.inl (Or.inl hc)
        · rcases List.mem_cons.1 hm with heq | hm
          · simp only [Prod.mk.injEq] at heq
            obtain ⟨rfl, rfl⟩ := heq
            exact Or.inl (Or.inr ⟨rfl, i, List.mem_range.2 hi, hit, hie⟩)
          · exact Or.inr ⟨ms2, hm, i, hi, hit, hie⟩

theorem recordOrbits_some (move : Position) (c : Block) (s : Position)
    (h : ∀ e ∈ move, ∀ i, i < e.2.size.toNat →
      touches e.2 i ≠ none ∧ s.entry e.1 i ≠ none) :
    ∃ c', recordOrbits move (c, s) = some (c', s) := by
  induction move generalizing c with
  | nil => exact ⟨c, rfl⟩
  | cons e rest ih =>
    obtain ⟨L, ms⟩ := e
    have hrest : ∀ e ∈ rest, ∀ i, i < e.2.size.toNat →
        touches e.2 i ≠ none ∧ s.entry e.1 i ≠ none :=
      fun e he => h e (List.mem_cons_of_mem _ he)
    obtain ⟨c1, hc1⟩ := recordSlots_some L ms (List.range ms.size.toNat) c s
      (fun i hi => h (L, ms) (List.mem_cons_self _ _) i (List.mem_range.1 hi))
    obtain ⟨c2, hc2⟩ := ih c1 hrest
    exact ⟨c2, by rw [recordOrbits, hc1]; exact hc2⟩

theorem recordOrbits_congr (move : Position) (c : Block) (s1 s2 : Position)
    (h : ∀ e ∈ move, ∀ i, i < e.2.size.toNat → touches e.2 i = some true →
      s1.entry e.1 i = s2.entry e.1 i) :
    (recordOrbits move (c, s1)).map Prod.fst = (recordOrbits move (c, s2)).map Prod.fst := by
  induction move generalizing c with
  | nil => rfl
  | cons e rest ih =>
    obtain ⟨L, ms⟩ := e
    have hrest : ∀ e ∈ rest, ∀ i, i < e.2.size.toNat → touches e.2 i = some true →
        s1.entry e.1 i = s2.entry e.1 i :=
      fun e he => h e (List.mem_cons_of_mem _ he)
    have hhead := recordSlots_congr L ms (List.range ms.size.toNat) c s1 s2
      (fun i hi => h (L, ms) (List.mem_cons_self _ _) i (List.mem_range.1 hi))
    rw [recordOrbits, recordOrbits]
    cases h1 : recordSlots L ms (List.range ms.size.toNat) (c, s1) with
    | none =>
      cases h2 : recordSlots L ms (List.range ms.size.toNat) (c, s2) with
      | none => rfl
      | some a2 => simp [h1, h2] at hhead
    | some a1 =>
      cases h2 : recordSlots L ms (List.range ms.size.toNat) (c, s2) with
      | none => simp [h1, h2] at hhead
      | some a2 =>
        obtain ⟨c1, t1⟩ := a1
        obtain ⟨c2, t2⟩ := a2
        simp only [h1, h2, Option.map_some', Option.some.injEq] at hhead
        have e1 := (recordSlots_spec L ms _ c s1 c1 t1 h1).1
        have e2 := (recordSlots_spec L ms _ c s2 c2 t2 h2).1
        subst e1 e2
        subst hhead
        exact ih c1 hrest

/-! ## The second loop nest -/

theorem classifyPieces_spec (c : Block) (L : String) (ps : List Int) (f : Bool × Bool) :
    ((classifyPieces c L ps f).1 = true ↔ f.1 = true ∧ ∀ p ∈ ps, p ∈ c.pieces L) ∧
    ((classifyPieces c L ps f).2 = true ↔ f.2 = true ∧ ∀ p ∈ ps, p ∉ c.pieces L) := by
  induction ps generalizing f with
  | nil => simp [classifyPieces]
  | cons q qs ih =>
    by_cases hq : q ∈ c.pieces L
    · rw [classifyPieces, if_pos hq]
      obtain ⟨h1, h2⟩ := ih (f.1, false)
      rw [h1, h2]
      simp [hq]
    · rw [classifyPieces, if_neg hq]
      obtain ⟨h1, h2⟩ := ih (false, f.2)
      rw [h1, h2]
      simp [hq]

theorem classifyBlock_spec (c : Block) (b : Block) (f : Bool × Bool) :
    ((classifyBlock c b f).1 = true ↔ f.1 = true ∧ ∀ e ∈ b, ∀ p ∈ e.2, p ∈ c.pieces e.1) ∧
    ((classifyBlock c b f).2 = true ↔ f.2 = true ∧ ∀ e ∈ b, ∀ p ∈ e.2, p ∉ c.pieces e.1) := by
  induction b generalizing f with
  | nil => simp [classifyBlock]
  | cons e rest ih =>
    obtain ⟨L, S⟩ := e
    rw [classifyBlock]
    obtain ⟨h1, h2⟩ := ih (classifyPieces c L S f)
    obtain ⟨g1, g2⟩ := classifyPieces_spec c L S f
    rw [h1, h2, g1, g2]
    simp only [List.forall_mem_cons]
    constructor
    · constructor
      · rintro ⟨⟨a, b1⟩, b2⟩; exact ⟨a, b1, b2⟩
      · rintro ⟨a, b1, b2⟩; exact ⟨⟨a, b1⟩, b2⟩
    · constructor
      · rintro ⟨⟨a, b1⟩, b2⟩; exact ⟨a, b1, b2⟩
      · rintro ⟨a, b1, b2⟩; exact ⟨⟨a, b1⟩, b2⟩

theorem checkBlocks_iff (c : Block) (blocks : List Block) :
    checkBlocks c blocks = true ↔
      ∀ b ∈ blocks, (∀ e ∈ b, ∀ p ∈ e.2, p ∈ c.pieces e.1) ∨
        (∀ e ∈ b, ∀ p ∈ e.2, p ∉ c.pieces e.1) := by
  induction blocks with
  | nil => simp [checkBlocks]
  | cons b rest ih =>
    obtain ⟨h1, h2⟩ := classifyBlock_spec c b (true, true)
    simp only [true_and] at h1 h2
    rw [checkBlocks, List.forall_mem_cons, ← ih, ← h1, ← h2]
    cases ha : (classifyBlock c b (true, true)).1 <;>
      cases hb : (classifyBlock c b (true, true)).2 <;> simp

/-! ## Reading the validity hypothesis -/

theorem touches_true_iff (ms : PieceSet) (i : Nat) (hp : i < ms.permutation.length)
    (ho : i < ms.orientation.length) :
    touches ms i = some true ↔
      (ms.permutation[i]? ≠ some ((i : Int) + 1) ∨ ms.orientation[i]? ≠ some 0) := by
  unfold touches
  rw [List.getElem?_eq_getElem hp, List.getElem?_eq_getElem ho]
  dsimp only
  by_cases h1 : ms.permutation[i] = (i : Int) + 1
  · by_cases h2 : ms.orientation[i] = 0
    · simp [h1, h2]
    · simp [h1, h2]
  · simp [h1]

theorem touches_ne_none (ms : PieceSet) (i : Nat) (hp : i < ms.permutation.length)
    (ho : i < ms.orientation.length) : touches ms i ≠ none := by
  unfold touches
  rw [List.getElem?_eq_getElem hp, List.getElem?_eq_getElem ho]
  dsimp only
  split <;> simp

theorem entry_eq_some_iff (state : Position) (L : String) (i : Nat) (p : Int) :
    state.entry L i = some p ↔
      ∃ ss, lookup L state = some ss ∧ ss.permutation[i]? = some p := by
  unfold Position.entry
  cases lookup L state with
  | none => simp
  | some ss => simp

theorem slotsValid_reads (state move : Position) (h : slotsValid state move = true) :
    ∀ e ∈ move, ∀ i, i < e.2.size.toNat →
      i < e.2.permutation.length ∧ i < e.2.orientation.length ∧
        ∃ ss, lookup e.1 state = some ss ∧ i < ss.permutation.length := by
  intro e he i hi
  unfold slotsValid at h
  rw [List.all_eq_true] at h
  have h1 := h e he
  cases hl : lookup e.1 state with
  | none => simp [hl] at h1
  | some ss =>
    simp only [hl, Bool.and_eq_true, decide_eq_true_eq] at h1
    exact ⟨by omega, by omega, ss, rfl, by omega⟩

theorem slotsValid_defined (state move : Position) (h : slotsValid state move = true) :
    ∀ e ∈ move, ∀ i, i < e.2.size.toNat →
      touches e.2 i ≠ none ∧ state.entry e.1 i ≠ none := by
  intro e he i hi
  obtain ⟨h1, h2, ss, h3, h4⟩ := slotsValid_reads state move h e he i hi
  refine ⟨touches_ne_none e.2 i h1 h2, ?_⟩
  unfold Position.entry
  rw [h3]
  simp [List.getElem?_eq_getElem h4]

/-- Under the validity hypothesis `blocklegal` returns, leaves the state as it
was, and `changed` holds exactly the disturbed piece identities. -/
theorem computeChanged_valid (state move : Position)
    (hkeys : (move.map Prod.fst).Nodup) (hvalid : slotsValid state move = true) :
    ∃ c, computeChanged state move = some (c, state) ∧
      ∀ K p, p ∈ c.pieces K ↔ disturbed state move K p := by
  obtain ⟨c, hc⟩ := recordOrbits_some move [] state (slotsValid_defined state move hvalid)
  refine ⟨c, hc, fun K p => ?_⟩
  rw [(recordOrbits_spec move [] state c state hc).2 K p]
  have hnil : p ∉ Block.pieces [] K := by simp [Block.pieces, lookup]
  constructor
  · rintro (h | ⟨ms, hm, i, hi, hit, hie⟩)
    · exact absurd h hnil
    · obtain ⟨h1, h2, _, _, _⟩ := slotsValid_reads state move hvalid (K, ms) hm i hi
      obtain ⟨ss, hss, hp⟩ := (entry_eq_some_iff state K i p).1 hie
      exact ⟨ms, ss, lookup_of_mem K move ms hkeys hm, hss, i, Int.lt_toNat.1 hi, hp,
        (touches_true_iff ms i h1 h2).1 hit⟩
  · rintro ⟨ms, ss, hm, hss, i, hi, hp, hd⟩
    have hmem := lookup_mem K move ms hm
    have hi2 : i < ms.size.toNat := Int.lt_toNat.2 hi
    obtain ⟨h1, h2, _, _, _⟩ := slotsValid_reads state move hvalid (K, ms) hmem i hi2
    exact Or.inr ⟨ms, hmem, i, hi2, (touches_true_iff ms i h1 h2).2 hd,
      (entry_eq_some_iff state K i p).2 ⟨ss, hss, hp⟩⟩

theorem blocklegal_of_changed (state : Position) (blocks : List Block) (move : Position)
    (c : Block) (s : Position) (h : computeChanged state move = some (c, s)) :
    blocklegal state blocks move = some (checkBlocks c blocks, s) := by
  unfold blocklegal
  rw [h]

theorem blocklegal_fst (state : Position) (blocks : List Block) (move : Position) :
    (blocklegal state blocks move).map Prod.fst =
      ((computeChanged state move).map Prod.fst).map (fun c => checkBlocks c blocks) := by
  unfold blocklegal
  cases computeChanged state move with
  | none => rfl
  | some a => rfl

theorem blocklegal_frame (state : Position) (blocks : List Block) (move : Position)
    (r : Bool) (s : Position) (h : blocklegal state blocks move = some (r, s)) :
    s = state := by
  unfold blocklegal at h
  cases hc : computeChanged state move with
  | none => simp [hc] at h
  | some a =>
    obtain ⟨c, t⟩ := a
    simp only [hc, Option.some.injEq, Prod.mk.injEq] at h
    rw [← h.2]
    exact (recordOrbits_spec move [] state c t hc).1

theorem blocklegal_returns (state : Position) (blocks : List Block) (move : Position)
    (hvalid : slotsValid state move = true) :
    ∃ r, blocklegal state blocks move = some (r, state) := by
  obtain ⟨c, hc⟩ := recordOrbits_some move [] state (slotsValid_defined state move hvalid)
  exact ⟨checkBlocks c blocks, blocklegal_of_changed state blocks move c state hc⟩

theorem touches_true_imp (ms : PieceSet) (i : Nat) (h : touches ms i = some true) :
    ms.permutation[i]? ≠ some ((i : Int) + 1) ∨ ms.orientation[i]? ≠ some 0 := by
  unfold touches at h
  cases hp : ms.permutation[i]? with
  | none => simp [hp] at h
  | some mp =>
    by_cases h1 : mp = (i : Int) + 1
    · right
      cases ho : ms.orientation[i]? with
      | none => simp
      | some mo =>
        simp only [hp, h1, ne_eq, not_true_eq_false, if_false, ho, Option.some.injEq,
          decide_eq_true_eq] at h
        simpa using h
    · left
      simpa using h1

theorem mem_of_isBijection (perm : List Int) (n : Nat) (h : isBijection perm n) (p : Int)
    (h1 : 1 ≤ p) (h2 : p ≤ n) : p ∈ perm := by
  unfold isBijection at h
  rw [h.mem_iff, List.mem_map]
  refine ⟨p.toNat, ?_, ?_⟩
  · rw [List.mem_range']
    exact ⟨p.toNat - 1, by omega, by omega⟩
  · show ((p.toNat : Nat) : Int) = p
    omega

/-! ## Block legality: the claims -/

/-- C1: with every orbit label of the move present in the state and every
slot index below the orbit size valid, `blocklegal` returns, and returns `true`
exactly when every block is fully disturbed or fully stationary; it returns
`false` exactly when some block has a disturbed and an undisturbed member. -/
theorem blocklegal_iff_all_or_none (state : Position) (blocks : List Block)
    (move : Position) (hkeys : (move.map Prod.fst).Nodup)
    (hvalid : slotsValid state move = true) :
    ∃ r, blocklegal state blocks move = some (r, state) ∧
      (r = true ↔
        ∀ b ∈ blocks, fullyDisturbed state move b ∨ fullyStationary state move b) ∧
      (r = false ↔
        ∃ b ∈ blocks, (∃ L p, isMember b L p ∧ disturbed state move L p) ∧
          (∃ L p, isMember b L p ∧ ¬ disturbed state move L p)) := by
  obtain ⟨c, hc, hpieces⟩ := computeChanged_valid state move hkeys hvalid
  have hfd : ∀ b : Block, (∀ e ∈ b, ∀ p ∈ e.2, p ∈ c.pieces e.1) ↔
      fullyDisturbed state move b := by
    intro b
    constructor
    · rintro h L p ⟨S, hS, hp⟩
      exact (hpieces L p).1 (h (L, S) hS p hp)
    · intro h e he p hp
      exact (hpieces e.1 p).2 (h e.1 p ⟨e.2, he, hp⟩)
  have hfs : ∀ b : Block, (∀ e ∈ b, ∀ p ∈ e.2, p ∉ c.pieces e.1) ↔
      fullyStationary state move b := by
    intro b
    constructor
    · rintro h L p ⟨S, hS, hp⟩ hd
      exact h (L, S) hS p hp ((hpieces L p).2 hd)
    · intro h e he p hp hin
      exact h e.1 p ⟨e.2, he, hp⟩ ((hpieces e.1 p).1 hin)
  have htrue : checkBlocks c blocks = true ↔
      ∀ b ∈ blocks, fullyDisturbed state move b ∨ fullyStationary state move b := by
    rw [checkBlocks_iff]
    constructor
    · intro h b hb
      rcases h b hb with h1 | h1
      · exact Or.inl ((hfd b).1 h1)
      · exact Or.inr ((hfs b).1 h1)
    · intro h b hb
      rcases h b hb with h1 | h1
      · exact Or.inl ((hfd b).2 h1)
      · exact Or.inr ((hfs b).2 h1)
  refine ⟨checkBlocks c blocks, blocklegal_of_changed state blocks move c state hc, htrue, ?_⟩
  rw [← Bool.not_eq_true, htrue]
  constructor
  · intro h
    by_contra hcon
    apply h
    intro b hb
    by_contra hb2
    apply hcon
    refine ⟨b, hb, ?_, ?_⟩
    · by_contra h3
      apply hb2
      right
      intro L p hm hd
      exact h3 ⟨L, p, hm, hd⟩
    · by_contra h3
      apply hb2
      left
      intro L p hm
      by_contra hd
      exact h3 ⟨L, p, hm, hd⟩
  · rintro ⟨b, hb, ⟨L1, p1, hm1, hd1⟩, ⟨L2, p2, hm2, hd2⟩⟩ h
    rcases h b hb with h1 | h1
    · exact hd2 (h1 L2 p2 hm2)
    · exact h1 L1 p1 hm1 hd1

/-- The one way the indexing can change the state map: a label of the move
that the state lacks, in an orbit with a disturbed slot.  The access inserts
an empty entry, whose slot the same expression then reads out of range, so the
call has no defined return. -/
theorem blocklegal_absent_label :
    (Position.index [] "A").2 = [("A", default)] ∧
      blocklegal [] [] [("A", ⟨1, [2], [0]⟩)] = none := by
  decide

/-- C4: `blocklegal` has no side effect on the state map: whenever the call
returns, the state is the one it was given (no orbit entry has been added by
the indexing with the move's labels); and with all slot accesses in range the
call does return.  The block set and the move are only read. -/
theorem blocklegal_no_side_effect (state : Position) (blocks : List Block)
    (move : Position) :
    (∀ r s, blocklegal state blocks move = some (r, s) → s = state) ∧
      (slotsValid state move = true → ∃ r, blocklegal state blocks move = some (r, state)) :=
  ⟨fun r s h => blocklegal_frame state blocks move r s h,
    fun hvalid => blocklegal_returns state blocks move hvalid⟩

/-- C5: a block made of piece identities of one orbit (all of `1..n` or any
subset) does not block a move that disturbs every slot of that orbit, when the
state's permutation of the orbit is a bijection on `1..n`. -/
theorem blocklegal_full_orbit_block (state move : Position) (L : String)
    (ms ss : PieceSet) (S : List Int) (n : Nat)
    (hvalid : slotsValid state move = true)
    (hm : lookup L move = some ms) (hs : lookup L state = some ss)
    (hsize : ms.size = n) (hbij : isBijection ss.permutation n)
    (hall : ∀ i : Nat, i < n →
      (ms.permutation[i]? ≠ some ((i : Int) + 1) ∨ ms.orientation[i]? ≠ some 0))
    (hS : ∀ p ∈ S, 1 ≤ p ∧ p ≤ n) :
    blocklegal state [[(L, S)]] move = some (true, state) := by
  obtain ⟨c, hc⟩ := recordOrbits_some move [] state (slotsValid_defined state move hvalid)
  have hpieces := (recordOrbits_spec move [] state c state hc).2
  have hmem := lookup_mem L move ms hm
  have hlen : ss.permutation.length = n := by
    have := hbij.length_eq
    simpa using this
  have hcheck : checkBlocks c [[(L, S)]] = true := by
    rw [checkBlocks_iff]
    intro b hb
    rw [List.mem_singleton] at hb
    subst hb
    left
    intro e he p hp
    rw [List.mem_singleton] at he
    subst he
    obtain ⟨hp1, hp2⟩ := hS p hp
    have hin := mem_of_isBijection ss.permutation n hbij p hp1 hp2
    obtain ⟨i, hi, hget⟩ := List.getElem_of_mem hin
    rw [hlen] at hi
    have hi2 : i < ms.size.toNat := by rw [hsize]; simpa using hi
    obtain ⟨h1, h2, _, _, _⟩ := slotsValid_reads state move hvalid (L, ms) hmem i hi2
    rw [hpieces]
    right
    refine ⟨ms, hmem, i, hi2, (touches_true_iff ms i h1 h2).2 (hall i hi), ?_⟩
    rw [entry_eq_some_iff]
    refine ⟨ss, hs, ?_⟩
    rw [List.getElem?_eq_getElem (by rw [hlen]; exact hi), hget]
  rw [blocklegal_of_changed state [[(L, S)]] move c state hc, hcheck]

/-- C10: `blocklegal` depends on the state only through the permutation
entries at the slots the move disturbs: two states that agree on those entries
get the same answer (and both calls return when their slot accesses are in
range). -/
theorem blocklegal_depends_on_disturbed_entries (blocks : List Block)
    (move s1 s2 : Position)
    (hagree : ∀ L ms, (L, ms) ∈ move → ∀ i : Nat, (i : Int) < ms.size →
      (ms.permutation[i]? ≠ some ((i : Int) + 1) ∨ ms.orientation[i]? ≠ some 0) →
      s1.entry L i = s2.entry L i) :
    (blocklegal s1 blocks move).map Prod.fst = (blocklegal s2 blocks move).map Prod.fst ∧
      (slotsValid s1 move = true → slotsValid s2 move = true →
        ∃ r, blocklegal s1 blocks move = some (r, s1) ∧
          blocklegal s2 blocks move = some (r, s2)) := by
  have heq : (blocklegal s1 blocks move).map Prod.fst =
      (blocklegal s2 blocks move).map Prod.fst := by
    rw [blocklegal_fst, blocklegal_fst]
    unfold computeChanged
    rw [recordOrbits_congr move [] s1 s2]
    intro e he i hi ht
    exact hagree e.1 e.2 he i (Int.lt_toNat.1 hi) (touches_true_imp e.2 i ht)
  refine ⟨heq, fun h1 h2 => ?_⟩
  obtain ⟨r1, hr1⟩ := blocklegal_returns s1 blocks move h1
  obtain ⟨r2, hr2⟩ := blocklegal_returns s2 blocks move h2
  rw [hr1, hr2] at heq
  simp only [Option.map_some', Option.some.injEq] at heq
  subst heq
  exact ⟨r1, hr1, hr2⟩

/-- Witness of C1: one orbit of three pieces, the move that swaps the first
two slots, the block {1, 2}. -/
theorem blocklegal_iff_all_or_none_witness :
    (["A"].Nodup ∧
      slotsValid [("A", ⟨3, [1, 2, 3], [0, 0, 0]⟩)] [("A", ⟨3, [2, 1, 3], [0, 0, 0]⟩)] = true) ∧
    ∃ r, blocklegal [("A", ⟨3, [1, 2, 3], [0, 0, 0]⟩)] [[("A", [1, 2])]]
        [("A", ⟨3, [2, 1, 3], [0, 0, 0]⟩)] = some (r, [("A", ⟨3, [1, 2, 3], [0, 0, 0]⟩)]) ∧
      (r = true ↔
        ∀ b ∈ [[("A", [1, 2])]],
          fullyDisturbed [("A", ⟨3, [1, 2, 3], [0, 0, 0]⟩)]
              [("A", ⟨3, [2, 1, 3], [0, 0, 0]⟩)] b ∨
            fullyStationary [("A", ⟨3, [1, 2, 3], [0, 0, 0]⟩)]
              [("A", ⟨3, [2, 1, 3], [0, 0, 0]⟩)] b) ∧
      (r = false ↔
        ∃ b ∈ [[("A", [1, 2])]],
          (∃ L p, isMember b L p ∧
            disturbed [("A", ⟨3, [1, 2, 3], [0, 0, 0]⟩)]
              [("A", ⟨3, [2, 1, 3], [0, 0, 0]⟩)] L p) ∧
          (∃ L p, isMember b L p ∧
            ¬ disturbed [("A", ⟨3, [1, 2, 3], [0, 0, 0]⟩)]
              [("A", ⟨3, [2, 1, 3], [0, 0, 0]⟩)] L p)) :=
  ⟨⟨by decide, by decide⟩,
    blocklegal_iff_all_or_none [("A", ⟨3, [1, 2, 3], [0, 0, 0]⟩)] [[("A", [1, 2])]]
      [("A", ⟨3, [2, 1, 3], [0, 0, 0]⟩)] (by decide) (by decide)⟩

/-- Witness of C4: the call of the C1 witness returns and leaves the state as
it was. -/
theorem blocklegal_no_side_effect_witness :
    slotsValid [("A", ⟨3, [1, 2, 3], [0, 0, 0]⟩)] [("A", ⟨3, [2, 1, 3], [0, 0, 0]⟩)] = true ∧
    ∃ r, blocklegal [("A", ⟨3, [1, 2, 3], [0, 0, 0]⟩)] [[("A", [1, 2])]]
        [("A", ⟨3, [2, 1, 3], [0, 0, 0]⟩)] = some (r, [("A", ⟨3, [1, 2, 3], [0, 0, 0]⟩)]) :=
  ⟨by decide,
    (blocklegal_no_side_effect [("A", ⟨3, [1, 2, 3], [0, 0, 0]⟩)] [[("A", [1, 2])]]
      [("A", ⟨3, [2, 1, 3], [0, 0, 0]⟩)]).2 (by decide)⟩

/-- Witness of C5: one orbit of three pieces, the move that cycles them, the
block {1, 2, 3}. -/
theorem blocklegal_full_orbit_block_witness :
    blocklegal [("A", ⟨3, [1, 2, 3], [0, 0, 0]⟩)] [[("A", [1, 2, 3])]]
      [("A", ⟨3, [2, 3, 1], [0, 0, 0]⟩)] = some (true, [("A", ⟨3, [1, 2, 3], [0, 0, 0]⟩)]) :=
  blocklegal_full_orbit_block [("A", ⟨3, [1, 2, 3], [0, 0, 0]⟩)]
    [("A", ⟨3, [2, 3, 1], [0, 0, 0]⟩)] "A" ⟨3, [2, 3, 1], [0, 0, 0]⟩ ⟨3, [1, 2, 3], [0, 0, 0]⟩
    [1, 2, 3] 3 (by decide) (by decide) (by decide) (by decide) (List.Perm.refl _)
    (by intro i hi; interval_cases i <;> decide)
    (by decide)

/-- Witness of C10: two states that differ in the undisturbed third slot and
in their orientations get the same answer. -/
theorem blocklegal_depends_on_disturbed_entries_witness :
    ∃ r, blocklegal [("A", ⟨3, [1, 2, 3], [0, 0, 0]⟩)] [[("A", [1, 2])]]
        [("A", ⟨3, [2, 1, 3], [0, 0, 0]⟩)] = some (r, [("A", ⟨3, [1, 2, 3], [0, 0, 0]⟩)]) ∧
      blocklegal [("A", ⟨3, [1, 2, 7], [1, 1, 1]⟩)] [[("A", [1, 2])]]
        [("A", ⟨3, [2, 1, 3], [0, 0, 0]⟩)] = some (r, [("A", ⟨3, [1, 2, 7], [1, 1, 1]⟩)]) :=
  (blocklegal_depends_on_disturbed_entries [[("A", [1, 2])]]
    [("A", ⟨3, [2, 1, 3], [0, 0, 0]⟩)] [("A", ⟨3, [1, 2, 3], [0, 0, 0]⟩)]
    [("A", ⟨3, [1, 2, 7], [1, 1, 1]⟩)]
    (by
      intro L ms hmem i hi hd
      rw [List.mem_singleton, Prod.mk.injEq] at hmem
      obtain ⟨rfl, rfl⟩ := hmem
      have hi2 : (i : Int) < 3 := hi
      have hi3 : i < 3 := by omega
      interval_cases i
      · rfl
      · rfl
      · exact absurd hd (by decide))).2 (by decide) (by decide)

/-- C8: block legality is unreliable against unknown entries.  With one orbit
of three pieces, the block {1, 2} and the move that swaps the first two slots,
the state [1, -1, 3] is rejected while the fully specified state [1, 2, 3],
which agrees with it on every known entry, is accepted. -/
theorem blocklegal_unreliable_with_unknown :
    ∃ (s1 s2 : Position) (blocks : List Block) (move : Position),
      (∃ L i, s1.entry L i = some (-1)) ∧
      (∀ L i, s2.entry L i ≠ some (-1)) ∧
      (∀ L i p, s1.entry L i = some p → p ≠ -1 → s2.entry L i = some p) ∧
      blocklegal s1 blocks move = some (false, s1) ∧
      blocklegal s2 blocks move = some (true, s2) := by
  refine ⟨[("A", ⟨3, [1, -1, 3], [0, 0, 0]⟩)], [("A", ⟨3, [1, 2, 3], [0, 0, 0]⟩)],
    [[("A", [1, 2])]], [("A", ⟨3, [2, 1, 3], [0, 0, 0]⟩)], ⟨"A", 1, by decide⟩, ?_, ?_,
    by decide, by decide⟩
  · intro L i
    unfold Position.entry lookup
    by_cases hL : "A" = L
    · rw [if_pos hL]
      rcases i with _ | _ | _ | i <;> simp
    · rw [if_neg hL]
      simp [lookup]
  · intro L i p
    unfold Position.entry lookup
    by_cases hL : "A" = L
    · rw [if_pos hL, if_pos hL]
      rcases i with _ | _ | _ | i <;> simp
      · intro h _; exact h
      · intro h1 h2; exact absurd h1.symm h2
      · intro h _; exact h
    · rw [if_neg hL]
      simp [lookup]

/-! ## The search driver: traces -/

theorem searchedDepths_append (a b : List Event) :
    searchedDepths (a ++ b) = searchedDepths a ++ searchedDepths b := by
  induction a with
  | nil => rfl
  | cons e rest ih => cases e <;> simp [searchedDepths, ih]

theorem treeSolveCalls_append (a b : List Event) :
    treeSolveCalls (a ++ b) = treeSolveCalls a ++ treeSolveCalls b := by
  induction a with
  | nil => rfl
  | cons e rest ih => cases e <;> simp [treeSolveCalls, ih]

theorem wrapInt_eq (x : Int) (h1 : -2147483648 ≤ x) (h2 : x ≤ 2147483647) : wrapInt x = x := by
  unfold wrapInt
  omega

theorem wrapInt_le (x : Int) : wrapInt x ≤ 2147483647 := by
  unfold wrapInt
  omega

/-- One iteration of the loop, by the three ways it can go on. -/
theorem searchLoop_succ (treeSolve : TreeSolve) (blocks : List Block) (sc : ScrambleDef)
    (fuel : Nat) (depth usedSlack : Int) (out : List Event) :
    searchLoop treeSolve blocks sc (fuel + 1) depth usedSlack out =
      if (treeSolve sc.state sc.ignore blocks depth sc.metric = true ∨ usedSlack > 0) ∧
          wrapInt (usedSlack + 1) > sc.slack then
        (out ++ [Event.treeSolveCall sc.state sc.ignore blocks depth sc.metric], true)
      else if wrapInt (depth + 1) > sc.max_depth then
        (out ++ [Event.treeSolveCall sc.state sc.ignore blocks depth sc.metric] ++
          [Event.maxDepthAbort], true)
      else
        searchLoop treeSolve blocks sc fuel (wrapInt (depth + 1))
          (if treeSolve sc.state sc.ignore blocks depth sc.metric = true ∨ usedSlack > 0
            then wrapInt (usedSlack + 1) else usedSlack)
          (out ++ [Event.treeSolveCall sc.state sc.ignore blocks depth sc.metric] ++
            [Event.depthLine (wrapInt (depth + 1))]) := by
  rw [searchLoop]
  by_cases hc : treeSolve sc.state sc.ignore blocks depth sc.metric = true ∨ usedSlack > 0
  · have hb : (treeSolve sc.state sc.ignore blocks depth sc.metric ||
        decide (usedSlack > 0)) = true := by
      rcases hc with h | h
      · simp [h]
      · simp [h]
    simp only [hb, if_true, Bool.true_and, decide_eq_true_eq, hc, true_and]
  · have hb : (treeSolve sc.state sc.ignore blocks depth sc.metric ||
        decide (usedSlack > 0)) = false := by
      simp only [not_or, Bool.not_eq_true] at hc
      simp [hc.1, hc.2]
    simp only [hb, hc, Bool.false_and, false_and, if_false, Bool.false_eq_true]

/-- One iteration of the loop while both counters are below `INT_MAX`: the
increments are exact. -/
theorem searchLoop_succ_inrange (treeSolve : TreeSolve) (blocks : List Block)
    (sc : ScrambleDef) (fuel : Nat) (depth usedSlack : Int) (out : List Event)
    (hd1 : 0 ≤ depth) (hd2 : depth < 2147483647)
    (hu1 : 0 ≤ usedSlack) (hu2 : usedSlack < 2147483647) :
    searchLoop treeSolve blocks sc (fuel + 1) depth usedSlack out =
      if (treeSolve sc.state sc.ignore blocks depth sc.metric = true ∨ usedSlack > 0) ∧
          usedSlack + 1 > sc.slack then
        (out ++ [Event.treeSolveCall sc.state sc.ignore blocks depth sc.metric], true)
      else if depth + 1 > sc.max_depth then
        (out ++ [Event.treeSolveCall sc.state sc.ignore blocks depth sc.metric] ++
          [Event.maxDepthAbort], true)
      else
        searchLoop treeSolve blocks sc fuel (depth + 1)
          (if treeSolve sc.state sc.ignore blocks depth sc.metric = true ∨ usedSlack > 0
            then usedSlack + 1 else usedSlack)
          (out ++ [Event.treeSolveCall sc.state sc.ignore blocks depth sc.metric] ++
            [Event.depthLine (depth + 1)]) := by
  rw [searchLoop_succ, wrapInt_eq (depth + 1) (by omega) (by omega),
    wrapInt_eq (usedSlack + 1) (by omega) (by omega)]

/-- The trace of the loop extends the one it started from, and what it adds
holds no warning line. -/
theorem searchLoop_extends (treeSolve : TreeSolve) (blocks : List Block) (sc : ScrambleDef)
    (fuel : Nat) (depth usedSlack : Int) (out : List Event) :
    ∃ tail, (searchLoop treeSolve blocks sc fuel depth usedSlack out).1 = out ++ tail ∧
      Event.unknownWarning ∉ tail := by
  induction fuel generalizing depth usedSlack out with
  | zero => exact ⟨[], by simp [searchLoop], by simp⟩
  | succ fuel ih =>
    rw [searchLoop_succ]
    split
    · exact ⟨_, rfl, by simp⟩
    · split
      · exact ⟨[Event.treeSolveCall sc.state sc.ignore blocks depth sc.metric,
          Event.maxDepthAbort], by simp, by simp⟩
      · obtain ⟨tail, ht, hw⟩ := ih (wrapInt (depth + 1))
          (if treeSolve sc.state sc.ignore blocks depth sc.metric = true ∨ usedSlack > 0
            then wrapInt (usedSlack + 1) else usedSlack)
          (out ++ [Event.treeSolveCall sc.state sc.ignore blocks depth sc.metric] ++
            [Event.depthLine (wrapInt (depth + 1))])
        refine ⟨Event.treeSolveCall sc.state sc.ignore blocks depth sc.metric ::
          Event.depthLine (wrapInt (depth + 1)) :: tail, ?_, ?_⟩
        · rw [ht]; simp
        · simp [hw]

/-- As soon as one iteration is run, the first thing the loop does is the call
of `treeSolve` at the depth it starts from. -/
theorem searchLoop_first_call (treeSolve : TreeSolve) (blocks : List Block)
    (sc : ScrambleDef) (fuel : Nat) (depth usedSlack : Int) (out : List Event) :
    ∃ tail, (searchLoop treeSolve blocks sc (fuel + 1) depth usedSlack out).1 =
        out ++ Event.treeSolveCall sc.state sc.ignore blocks depth sc.metric :: tail ∧
      Event.unknownWarning ∉ tail := by
  rw [searchLoop_succ]
  split
  · exact ⟨[], rfl, by simp⟩
  · split
    · exact ⟨[Event.maxDepthAbort], by simp, by simp⟩
    · obtain ⟨tail, ht, hw⟩ := searchLoop_extends treeSolve blocks sc fuel
        (wrapInt (depth + 1))
        (if treeSolve sc.state sc.ignore blocks depth sc.metric = true ∨ usedSlack > 0
          then wrapInt (usedSlack + 1) else usedSlack)
        (out ++ [Event.treeSolveCall sc.state sc.ignore blocks depth sc.metric] ++
          [Event.depthLine (wrapInt (depth + 1))])
      refine ⟨Event.depthLine (wrapInt (depth + 1)) :: tail, ?_, ?_⟩
      · rw [ht]; simp
      · simp [hw]

/-- With a `treeSolve` that never finds a solution and a maximum depth of
`INT_MAX` or more, the loop is never left and the abort line never printed:
no value of `depth` exceeds the bound. -/
theorem searchLoop_stuck (treeSolve : TreeSolve) (blocks : List Block) (sc : ScrambleDef)
    (hts : ∀ d, treeSolve sc.state sc.ignore blocks d sc.metric = false)
    (hmax : 2147483647 ≤ sc.max_depth) (fuel : Nat) (depth : Int) (out : List Event)
    (hout : Event.maxDepthAbort ∉ out) :
    (searchLoop treeSolve blocks sc fuel depth 0 out).2 = false ∧
      Event.maxDepthAbort ∉ (searchLoop treeSolve blocks sc fuel depth 0 out).1 := by
  induction fuel generalizing depth out with
  | zero => exact ⟨rfl, hout⟩
  | succ fuel ih =>
    have hc : ¬ (treeSolve sc.state sc.ignore blocks depth sc.metric = true ∨
        (0 : Int) > 0) := by
      rw [hts depth]
      simp
    have hw : ¬ wrapInt (depth + 1) > sc.max_depth := by
      have := wrapInt_le (depth + 1)
      omega
    rw [searchLoop_succ, if_neg (fun h => hc h.1), if_neg hw, if_neg hc]
    exact ih _ _ (by simp [hout])

/-- Once a solution has been counted (`usedSlack >= 1`): the loop searches
the depths from the current one up to the end of the slack or to the maximum
depth, whichever comes first, and prints the abort line in the second case.
The maximum depth is below `INT_MAX`, so that no increment wraps. -/
theorem searchLoop_counting (treeSolve : TreeSolve) (blocks : List Block) (sc : ScrambleDef)
    (fuel : Nat) (n : Nat) (u : Int) (out : List Event)
    (hb : sc.max_depth < 2147483647)
    (hu1 : 1 ≤ u) (hu2 : u ≤ sc.slack) (hn : (n : Int) ≤ sc.max_depth)
    (hfuel : (sc.max_depth - n).toNat < fuel) (hun : u ≤ n) :
    ∃ res, searchLoop treeSolve blocks sc fuel n u out = (res, true) ∧
      searchedDepths res = searchedDepths out ++
        (List.range' n ((min (sc.slack - u) (sc.max_depth - n)).toNat + 1)).map
          (fun k : Nat => (k : Int)) ∧
      (Event.maxDepthAbort ∈ res ↔
        Event.maxDepthAbort ∈ out ∨ sc.max_depth - n < sc.slack - u) := by
  induction fuel generalizing n u out with
  | zero => omega
  | succ fuel ih =>
    rw [searchLoop_succ_inrange treeSolve blocks sc fuel n u out (by omega) (by omega)
      (by omega) (by omega)]
    have hpos : u > 0 := by omega
    by_cases hbreak : u + 1 > sc.slack
    · rw [if_pos ⟨Or.inr hpos, hbreak⟩]
      refine ⟨_, rfl, ?_, ?_⟩
      · have h0 : (min (sc.slack - u) (sc.max_depth - n)).toNat = 0 := by omega
        rw [searchedDepths_append, h0]
        simp [searchedDepths]
      · have : ¬ sc.max_depth - n < sc.slack - u := by omega
        simp [this]
    · rw [if_neg (fun h => hbreak h.2)]
      by_cases hmax : (n : Int) + 1 > sc.max_depth
      · rw [if_pos hmax]
        refine ⟨_, rfl, ?_, ?_⟩
        · have h0 : (min (sc.slack - u) (sc.max_depth - n)).toNat = 0 := by omega
          rw [searchedDepths_append, searchedDepths_append, h0]
          simp [searchedDepths]
        · have : sc.max_depth - n < sc.slack - u := by omega
          simp [this]
      · rw [if_neg hmax, if_pos (Or.inr hpos)]
        have hcast : (n : Int) + 1 = ((n + 1 : Nat) : Int) := by push_cast; rfl
        rw [hcast]
        obtain ⟨res, hres, hsd, hab⟩ := ih (n + 1) (u + 1)
          (out ++ [Event.treeSolveCall sc.state sc.ignore blocks n sc.metric] ++
            [Event.depthLine ((n + 1 : Nat) : Int)])
          (by omega) (by omega) (by push_cast; omega) (by push_cast; omega)
          (by push_cast; omega)
        refine ⟨res, hres, ?_, ?_⟩
        · have hk : (min (sc.slack - u) (sc.max_depth - n)).toNat =
              (min (sc.slack - (u + 1)) (sc.max_depth - ((n + 1 : Nat) : Int))).toNat + 1 := by
            push_cast; omega
          rw [hsd, hk, searchedDepths_append, searchedDepths_append,
            List.range'_succ n _ 1]
          simp [searchedDepths]
        · rw [hab]
          have hiff : (sc.max_depth - ((n + 1 : Nat) : Int) < sc.slack - (u + 1)) ↔
              (sc.max_depth - n < sc.slack - u) := by push_cast; omega
          rw [hiff]
          simp

/-- Before any solution has been counted (`usedSlack = 0`), from depth `n`:
when no depth up to the maximum has a solution the loop searches all of them
and prints the abort line; when `d` is the first depth with a solution it goes
on to `min (d + slack) max_depth`, and prints the abort line exactly when
`d + slack` lies beyond the maximum depth.  The maximum depth is below
`INT_MAX`, so that no increment wraps. -/
theorem searchLoop_searching (treeSolve : TreeSolve) (blocks : List Block) (sc : ScrambleDef)
    (fuel : Nat) (n : Nat) (out : List Event)
    (hb : sc.max_depth < 2147483647)
    (hs : 0 ≤ sc.slack) (hn : (n : Int) ≤ sc.max_depth)
    (hfuel : (sc.max_depth - n).toNat < fuel) :
    ∃ res, searchLoop treeSolve blocks sc fuel n 0 out = (res, true) ∧
      ((∀ d : Nat, n ≤ d → (d : Int) ≤ sc.max_depth →
          treeSolve sc.state sc.ignore blocks d sc.metric = false) →
        searchedDepths res = searchedDepths out ++
          (List.range' n ((sc.max_depth - n).toNat + 1)).map (fun k : Nat => (k : Int)) ∧
        Event.maxDepthAbort ∈ res) ∧
      (∀ d : Nat, n ≤ d → (d : Int) ≤ sc.max_depth →
        treeSolve sc.state sc.ignore blocks d sc.metric = true →
        (∀ e : Nat, n ≤ e → e < d →
          treeSolve sc.state sc.ignore blocks e sc.metric = false) →
        searchedDepths res = searchedDepths out ++
          (List.range' n ((min ((d : Int) + sc.slack) sc.max_depth - n).toNat + 1)).map
            (fun k : Nat => (k : Int)) ∧
        (Event.maxDepthAbort ∈ res ↔
          Event.maxDepthAbort ∈ out ∨ sc.max_depth < (d : Int) + sc.slack)) := by
  induction fuel generalizing n out with
  | zero => omega
  | succ fuel ih =>
    rw [searchLoop_succ_inrange treeSolve blocks sc fuel n 0 out (by omega) (by omega)
      (by omega) (by omega)]
    have hcast : (n : Int) + 1 = ((n + 1 : Nat) : Int) := by push_cast; rfl
    by_cases hts : treeSolve sc.state sc.ignore blocks n sc.metric = true
    · -- a solution at depth `n`
      have hfirst : ∀ d : Nat, n ≤ d →
          (∀ e : Nat, n ≤ e → e < d →
            treeSolve sc.state sc.ignore blocks e sc.metric = false) → d = n := by
        intro d hd hall
        by_contra hne
        have := hall n le_rfl (by omega)
        rw [hts] at this
        exact absurd this (by simp)
      have hnone : ¬ ∀ d : Nat, n ≤ d → (d : Int) ≤ sc.max_depth →
          treeSolve sc.state sc.ignore blocks d sc.metric = false := by
        intro h
        have := h n le_rfl hn
        rw [hts] at this
        exact absurd this (by simp)
      by_cases hbreak : (0 : Int) + 1 > sc.slack
      · rw [if_pos ⟨Or.inl hts, hbreak⟩]
        refine ⟨_, rfl, fun h => absurd h hnone, ?_⟩
        intro d hd1 _ _ hd4
        have hdn := hfirst d hd1 hd4
        subst hdn
        have h0 : (min ((d : Int) + sc.slack) sc.max_depth - d).toNat = 0 := by omega
        have h1 : ¬ sc.max_depth < (d : Int) + sc.slack := by omega
        rw [searchedDepths_append, h0]
        simp [searchedDepths, h1]
      · rw [if_neg (fun h => hbreak h.2)]
        by_cases hmax : (n : Int) + 1 > sc.max_depth
        · rw [if_pos hmax]
          refine ⟨_, rfl, fun h => absurd h hnone, ?_⟩
          intro d hd1 _ _ hd4
          have hdn := hfirst d hd1 hd4
          subst hdn
          have h0 : (min ((d : Int) + sc.slack) sc.max_depth - d).toNat = 0 := by omega
          have h1 : sc.max_depth < (d : Int) + sc.slack := by omega
          rw [searchedDepths_append, searchedDepths_append, h0]
          simp [searchedDepths, h1]
        · rw [if_neg hmax, if_pos (Or.inl hts), hcast]
          obtain ⟨res, hres, hsd, hab⟩ := searchLoop_counting treeSolve blocks sc fuel (n + 1)
            (0 + 1)
            (out ++ [Event.treeSolveCall sc.state sc.ignore blocks n sc.metric] ++
              [Event.depthLine ((n + 1 : Nat) : Int)])
            hb (by omega) (by omega) (by push_cast; omega) (by push_cast; omega)
            (by push_cast; omega)
          refine ⟨res, hres, fun h => absurd h hnone, ?_⟩
          intro d hd1 _ _ hd4
          have hdn := hfirst d hd1 hd4
          subst hdn
          have hk : (min ((d : Int) + sc.slack) sc.max_depth - d).toNat =
              (min (sc.slack - (0 + 1)) (sc.max_depth - ((d + 1 : Nat) : Int))).toNat + 1 := by
            push_cast; omega
          have hiff : (sc.max_depth - ((d + 1 : Nat) : Int) < sc.slack - (0 + 1)) ↔
              (sc.max_depth < (d : Int) + sc.slack) := by push_cast; omega
          constructor
          · rw [hsd, hk, searchedDepths_append, searchedDepths_append,
              List.range'_succ d _ 1]
            simp [searchedDepths]
          · rw [hab, hiff]
            simp
    · -- no solution at depth `n`
      have hc : ¬ (treeSolve sc.state sc.ignore blocks n sc.metric = true ∨ (0 : Int) > 0) := by
        rintro (h | h)
        · exact hts h
        · omega
      rw [if_neg (fun h => hc h.1)]
      by_cases hmax : (n : Int) + 1 > sc.max_depth
      · rw [if_pos hmax]
        refine ⟨_, rfl, ?_, ?_⟩
        · intro _
          have h0 : (sc.max_depth - n).toNat = 0 := by omega
          rw [searchedDepths_append, searchedDepths_append, h0]
          simp [searchedDepths]
        · intro d hd1 hd2 hd3 _
          have hdn : d = n := by omega
          subst hdn
          exact absurd hd3 hts
      · rw [if_neg hmax, if_neg hc, hcast]
        obtain ⟨res, hres, hno, hyes⟩ := ih (n + 1)
          (out ++ [Event.treeSolveCall sc.state sc.ignore blocks n sc.metric] ++
            [Event.depthLine ((n + 1 : Nat) : Int)])
          (by push_cast; omega) (by push_cast; omega)
        refine ⟨res, hres, ?_, ?_⟩
        · intro h
          obtain ⟨h1, h2⟩ := hno (fun d hd => h d (by omega))
          refine ⟨?_, h2⟩
          have hk : (sc.max_depth - n).toNat =
              (sc.max_depth - ((n + 1 : Nat) : Int)).toNat + 1 := by push_cast; omega
          rw [h1, hk, searchedDepths_append, searchedDepths_append,
            List.range'_succ n _ 1]
          simp [searchedDepths]
        · intro d hd1 hd2 hd3 hd4
          have hdn : d ≠ n := by
            intro h
            subst h
            exact hts hd3
          obtain ⟨h1, h2⟩ := hyes d (by omega) hd2 hd3 (fun e he1 he2 => hd4 e (by omega) he2)
          constructor
          · have hk : (min ((d : Int) + sc.slack) sc.max_depth - n).toNat =
                (min ((d : Int) + sc.slack) sc.max_depth - ((n + 1 : Nat) : Int)).toNat + 1 := by
              push_cast; omega
            rw [h1, hk, searchedDepths_append, searchedDepths_append,
              List.range'_succ n _ 1]
            simp [searchedDepths]
          · rw [h2]
            simp

/-- When some depth up to the bound has a solution, there is a first one. -/
theorem exists_first_solution (ts : Int → Bool) (M : Int)
    (h : ∃ d : Nat, (d : Int) ≤ M ∧ ts d = true) :
    ∃ d : Nat, (d : Int) ≤ M ∧ ts d = true ∧ ∀ e : Nat, e < d → ts e = false := by
  refine ⟨Nat.find h, (Nat.find_spec h).1, (Nat.find_spec h).2, ?_⟩
  intro e he
  have hmin := Nat.find_min h he
  have hle : (e : Int) ≤ M := by
    have := (Nat.find_spec h).1
    omega
  cases hts : ts e with
  | false => rfl
  | true => exact absurd ⟨hle, hts⟩ hmin

/-! ## The search driver: the claims -/

/-- C2, as the code has it: for every `treeSolve`, slack `>= 0` and maximum
depth `>= 0` below `INT_MAX` the driver loop is left and has called `treeSolve`
at the depths `0, 1, ..., last`, each once and in this order.  When `d` is the least depth `<= max_depth` at which
`treeSolve` returns true, `last = min (d + slack) max_depth`; when there is no
such depth, `last = max_depth`. -/
theorem searchLoop_depths (treeSolve : TreeSolve) (blocks : List Block) (sc : ScrambleDef)
    (fuel : Nat) (hslack : 0 ≤ sc.slack) (hmax : 0 ≤ sc.max_depth)
    (hbound : sc.max_depth < 2147483647) (hfuel : sc.max_depth.toNat < fuel) :
    ∃ out, searchLoop treeSolve blocks sc fuel 0 0 [] = (out, true) ∧
      (∃ last : Nat, searchedDepths out =
        (List.range (last + 1)).map (fun k : Nat => (k : Int))) ∧
      (∀ d : Nat, (d : Int) ≤ sc.max_depth →
        treeSolve sc.state sc.ignore blocks d sc.metric = true →
        (∀ e : Nat, e < d → treeSolve sc.state sc.ignore blocks e sc.metric = false) →
        searchedDepths out =
          (List.range ((min ((d : Int) + sc.slack) sc.max_depth).toNat + 1)).map
            (fun k : Nat => (k : Int))) ∧
      ((∀ d : Nat, (d : Int) ≤ sc.max_depth →
          treeSolve sc.state sc.ignore blocks d sc.metric = false) →
        searchedDepths out =
          (List.range (sc.max_depth.toNat + 1)).map (fun k : Nat => (k : Int))) := by
  obtain ⟨res, hres, hno, hyes⟩ := searchLoop_searching treeSolve blocks sc fuel 0 []
    hbound hslack (by simpa using hmax) (by simpa using hfuel)
  have hyes2 : ∀ d : Nat, (d : Int) ≤ sc.max_depth →
      treeSolve sc.state sc.ignore blocks d sc.metric = true →
      (∀ e : Nat, e < d → treeSolve sc.state sc.ignore blocks e sc.metric = false) →
      searchedDepths res =
        (List.range ((min ((d : Int) + sc.slack) sc.max_depth).toNat + 1)).map
          (fun k : Nat => (k : Int)) := by
    intro d hd hts hfirst
    have h := (hyes d (Nat.zero_le d) hd hts (fun e _ he => hfirst e he)).1
    rw [h, List.range_eq_range']
    simp [searchedDepths]
  have hno2 : (∀ d : Nat, (d : Int) ≤ sc.max_depth →
      treeSolve sc.state sc.ignore blocks d sc.metric = false) →
      searchedDepths res =
        (List.range (sc.max_depth.toNat + 1)).map (fun k : Nat => (k : Int)) := by
    intro hall
    have h := (hno (fun d _ hd => hall d hd)).1
    rw [h, List.range_eq_range']
    simp [searchedDepths]
  refine ⟨res, by simpa using hres, ?_, hyes2, hno2⟩
  by_cases hex : ∃ d : Nat, (d : Int) ≤ sc.max_depth ∧
      treeSolve sc.state sc.ignore blocks d sc.metric = true
  · obtain ⟨d, hd, hts, hfirst⟩ :=
      exists_first_solution (fun x => treeSolve sc.state sc.ignore blocks x sc.metric)
        sc.max_depth hex
    exact ⟨_, hyes2 d hd hts hfirst⟩
  · refine ⟨_, hno2 ?_⟩
    intro d hd
    cases hts : treeSolve sc.state sc.ignore blocks d sc.metric with
    | false => rfl
    | true => exact absurd ⟨d, hd, hts⟩ hex

/-- Witness of C2: slack 1, maximum depth 5, a `treeSolve` that finds a
solution from depth 2 on. -/
theorem searchLoop_depths_witness :
    ∃ out, searchLoop (fun _ _ _ d _ => decide (2 ≤ d)) []
        ⟨"s", [("A", ⟨1, [1], [0]⟩)], [], 5, 1, 0, 0⟩ 6 0 0 [] = (out, true) ∧
      (∃ last : Nat, searchedDepths out =
        (List.range (last + 1)).map (fun k : Nat => (k : Int))) ∧
      (∀ d : Nat, (d : Int) ≤ 5 → decide ((2 : Int) ≤ d) = true →
        (∀ e : Nat, e < d → decide ((2 : Int) ≤ e) = false) →
        searchedDepths out =
          (List.range ((min ((d : Int) + 1) 5).toNat + 1)).map (fun k : Nat => (k : Int))) ∧
      ((∀ d : Nat, (d : Int) ≤ 5 → decide ((2 : Int) ≤ d) = false) →
        searchedDepths out = (List.range ((5 : Int).toNat + 1)).map (fun k : Nat => (k : Int))) :=
  searchLoop_depths (fun _ _ _ d _ => decide (2 ≤ d)) []
    ⟨"s", [("A", ⟨1, [1], [0]⟩)], [], 5, 1, 0, 0⟩ 6 (by decide) (by decide) (by decide)
    (by decide)

/-- C3, as the code has it: for slack `>= 0` and a maximum depth `>= 0` below
`INT_MAX` the loop is left, and the abort line is printed exactly when no depth
`0 .. max_depth - slack` has a solution, that is, when the maximum depth is
passed before `slack` depths beyond a first solution have been searched. -/
theorem maxDepthAbort_iff (treeSolve : TreeSolve) (blocks : List Block) (sc : ScrambleDef)
    (fuel : Nat) (hslack : 0 ≤ sc.slack) (hmax : 0 ≤ sc.max_depth)
    (hbound : sc.max_depth < 2147483647) (hfuel : sc.max_depth.toNat < fuel) :
    ∃ out, searchLoop treeSolve blocks sc fuel 0 0 [] = (out, true) ∧
      (Event.maxDepthAbort ∈ out ↔
        ∀ d : Nat, (d : Int) ≤ sc.max_depth - sc.slack →
          treeSolve sc.state sc.ignore blocks d sc.metric = false) := by
  obtain ⟨res, hres, hno, hyes⟩ := searchLoop_searching treeSolve blocks sc fuel 0 []
    hbound hslack (by simpa using hmax) (by simpa using hfuel)
  refine ⟨res, by simpa using hres, ?_⟩
  by_cases hex : ∃ d : Nat, (d : Int) ≤ sc.max_depth ∧
      treeSolve sc.state sc.ignore blocks d sc.metric = true
  · obtain ⟨d, hd, hts, hfirst⟩ :=
      exists_first_solution (fun x => treeSolve sc.state sc.ignore blocks x sc.metric)
        sc.max_depth hex
    have h := (hyes d (Nat.zero_le d) hd hts (fun e _ he => hfirst e he)).2
    rw [h]
    simp only [List.not_mem_nil, false_or]
    constructor
    · intro hlt e he
      exact hfirst e (by omega)
    · intro hall
      by_contra hge
      have := hall d (by omega)
      rw [hts] at this
      exact absurd this (by simp)
  · have hall : ∀ d : Nat, (d : Int) ≤ sc.max_depth →
        treeSolve sc.state sc.ignore blocks d sc.metric = false := by
      intro d hd
      cases hts : treeSolve sc.state sc.ignore blocks d sc.metric with
      | false => rfl
      | true => exact absurd ⟨d, hd, hts⟩ hex
    constructor
    · intro _ d hd
      exact hall d (by omega)
    · intro _
      exact (hno (fun d _ hd => hall d hd)).2

/-- Witness of C3 as amended: slack 1, maximum depth 5, solutions from depth 2
on. -/
theorem maxDepthAbort_iff_witness :
    ∃ out, searchLoop (fun _ _ _ d _ => decide (2 ≤ d)) []
        ⟨"s", [("A", ⟨1, [1], [0]⟩)], [], 5, 1, 0, 0⟩ 6 0 0 [] = (out, true) ∧
      (Event.maxDepthAbort ∈ out ↔
        ∀ d : Nat, (d : Int) ≤ 5 - 1 → decide ((2 : Int) ≤ d) = false) :=
  maxDepthAbort_iff (fun _ _ _ d _ => decide (2 ≤ d)) []
    ⟨"s", [("A", ⟨1, [1], [0]⟩)], [], 5, 1, 0, 0⟩ 6 (by decide) (by decide) (by decide)
    (by decide)

/-- C2 as stated fails at the maximum depth `INT_MAX`: with a `treeSolve` that
finds nothing, `depth` wraps around instead of exceeding the bound, and the
loop is not left after any number of iterations. -/
theorem searchLoop_not_left_at_int_max :
    ¬ ∃ fuel : Nat, (searchLoop (fun _ _ _ _ _ => false) []
        ⟨"s", [("A", ⟨1, [1], [0]⟩)], [], 2147483647, 0, 0, 0⟩ fuel 0 0 []).2 = true := by
  rintro ⟨fuel, h⟩
  have hs := (searchLoop_stuck (fun _ _ _ _ _ => false) []
    ⟨"s", [("A", ⟨1, [1], [0]⟩)], [], 2147483647, 0, 0, 0⟩ (fun _ => rfl) (by decide)
    fuel 0 [] (by simp)).1
  rw [hs] at h
  exact absurd h (by simp)

/-- C3 as stated fails in two ways.  With slack 1 and maximum depth 0, a
`treeSolve` that finds a solution at depth 0 still leads to the abort line.
With the maximum depth `INT_MAX` and a `treeSolve` that finds nothing, no depth
up to the maximum has a solution and yet the abort line is never printed,
after any number of iterations. -/
theorem maxDepthAbort_with_solution :
    (∃ out, searchLoop (fun _ _ _ _ _ => true) []
        ⟨"s", [("A", ⟨1, [1], [0]⟩)], [], 0, 1, 0, 0⟩ 1 0 0 [] = (out, true) ∧
      ¬ (Event.maxDepthAbort ∈ out ↔
        ∀ d : Nat, (d : Int) ≤ 0 → (fun _ : Int => true) d = false)) ∧
    ((∀ d : Nat, (d : Int) ≤ 2147483647 → (fun _ : Int => false) d = false) ∧
      ¬ ∃ fuel : Nat, Event.maxDepthAbort ∈ (searchLoop (fun _ _ _ _ _ => false) []
        ⟨"s", [("A", ⟨1, [1], [0]⟩)], [], 2147483647, 0, 0, 0⟩ fuel 0 0 []).1) := by
  refine ⟨⟨[Event.treeSolveCall [("A", ⟨1, [1], [0]⟩)] [] [] 0 0, Event.maxDepthAbort],
    by decide, ?_⟩, fun _ _ => rfl, ?_⟩
  · intro h
    have h2 := h.1 (by simp) 0 (by simp)
    simp at h2
  · rintro ⟨fuel, h⟩
    exact (searchLoop_stuck (fun _ _ _ _ _ => false) []
      ⟨"s", [("A", ⟨1, [1], [0]⟩)], [], 2147483647, 0, 0, 0⟩ (fun _ => rfl) (by decide)
      fuel 0 [] (by simp)).2 h

/-! ## The undefined-permutation warning -/

theorem scanOrbit_spec (ps : PieceSet) (is : List Nat) (h : Bool)
    (hb : ∀ i ∈ is, i < ps.permutation.length) :
    ∃ b, scanOrbit ps is h = some b ∧
      (b = true ↔ h = true ∨ ∃ i ∈ is, ps.permutation[i]? = some (-1)) := by
  induction is generalizing h with
  | nil => exact ⟨h, rfl, by simp⟩
  | cons i is ih =>
    have hi := hb i (List.mem_cons_self _ _)
    obtain ⟨b, hb1, hb2⟩ := ih (if ps.permutation[i] = -1 then true else h)
      (fun j hj => hb j (List.mem_cons_of_mem _ hj))
    refine ⟨b, ?_, ?_⟩
    · rw [scanOrbit, List.getElem?_eq_getElem hi]
      exact hb1
    · rw [hb2]
      simp only [List.mem_cons, exists_eq_or_imp, List.getElem?_eq_getElem hi,
        Option.some.injEq]
      by_cases hv : ps.permutation[i] = -1
      · simp [hv]
      · simp [hv]

theorem scanState_spec (state : Position) (h : Bool) (hvalid : orbitsValid state = true) :
    ∃ b, scanState state h = some b ∧
      (b = true ↔ h = true ∨
        ∃ e ∈ state, ∃ i : Nat, (i : Int) < e.2.size ∧ e.2.permutation[i]? = some (-1)) := by
  induction state generalizing h with
  | nil => exact ⟨h, rfl, by simp⟩
  | cons e rest ih =>
    obtain ⟨L, ps⟩ := e
    unfold orbitsValid at hvalid
    rw [List.all_cons, Bool.and_eq_true, decide_eq_true_eq] at hvalid
    have hlen : ps.size.toNat ≤ ps.permutation.length := hvalid.1
    obtain ⟨b1, hb1, hb1iff⟩ := scanOrbit_spec ps (List.range ps.size.toNat) h
      (fun i hi => by have := List.mem_range.1 hi; omega)
    have hb1iff2 : b1 = true ↔ h = true ∨
        ∃ i : Nat, (i : Int) < ps.size ∧ ps.permutation[i]? = some (-1) := by
      rw [hb1iff]
      simp only [List.mem_range, Int.lt_toNat]
    obtain ⟨b, hb, hbiff⟩ := ih b1 hvalid.2
    refine ⟨b, ?_, ?_⟩
    · rw [scanState, hb1]
      exact hb
    · rw [hbiff, hb1iff2]
      simp only [List.mem_cons, exists_eq_or_imp]
      rw [or_assoc]

theorem warningCheck_spec (blocks : List Block) (state : Position)
    (hvalid : orbitsValid state = true) :
    ∃ w, warningCheck blocks state = some w ∧ treeSolveCalls w = [] ∧
      (Event.unknownWarning ∈ w ↔ blocks ≠ [] ∧
        ∃ e ∈ state, ∃ i : Nat, (i : Int) < e.2.size ∧ e.2.permutation[i]? = some (-1)) := by
  unfold warningCheck
  by_cases hb : blocks.length ≠ 0
  · have hne : blocks ≠ [] := fun h => hb (by rw [h]; rfl)
    obtain ⟨b, hb1, hb2⟩ := scanState_spec state false hvalid
    rw [if_pos hb, hb1]
    cases b with
    | false =>
      refine ⟨[], rfl, rfl, ?_⟩
      simp only [Bool.false_eq_true, false_or, false_iff] at hb2
      simp only [List.not_mem_nil, false_iff, not_and]
      exact fun _ => hb2
    | true =>
      refine ⟨[Event.unknownWarning], rfl, rfl, ?_⟩
      simp only [true_iff, Bool.false_eq_true, false_or] at hb2
      simp only [List.mem_singleton, true_iff]
      exact ⟨hne, hb2⟩
  · have he : blocks = [] := by
      cases blocks with
      | nil => rfl
      | cons b bs => simp at hb
    rw [if_neg hb]
    exact ⟨[], rfl, rfl, by simp [he]⟩

/-- The processing of one scramble with valid orbits, once at least one
iteration of the search loop is run: the warning is in its trace exactly under
the condition of the check, and its first `treeSolve` call is the one at depth
0 with the arguments of the scramble. -/
theorem solveScramble_spec (treeSolve : TreeSolve) (blocks : List Block) (sc : ScrambleDef)
    (fuel : Nat) (hvalid : orbitsValid sc.state = true) (hfuel : 0 < fuel) :
    ∃ out ended, solveScramble treeSolve blocks sc fuel = some (out, ended) ∧
      (Event.unknownWarning ∈ out ↔ blocks ≠ [] ∧
        ∃ e ∈ sc.state, ∃ i : Nat, (i : Int) < e.2.size ∧
          e.2.permutation[i]? = some (-1)) ∧
      (treeSolveCalls out).head? =
        some (Event.treeSolveCall sc.state sc.ignore blocks 0 sc.metric) := by
  obtain ⟨w, hw, hwcalls, hwiff⟩ := warningCheck_spec blocks sc.state hvalid
  obtain ⟨f, rfl⟩ : ∃ f, fuel = f + 1 := ⟨fuel - 1, by omega⟩
  obtain ⟨tail, htail, hnotin⟩ := searchLoop_first_call treeSolve blocks sc f 0 0
    (Event.solving sc.name ::
        (if sc.printState = 1 then [Event.scramblePosition sc.state] else []) ++ w ++
      [Event.depthLine 0])
  have hmem : ∀ extra : List Event, Event.unknownWarning ∉ extra →
      (Event.unknownWarning ∈ (Event.solving sc.name ::
          (if sc.printState = 1 then [Event.scramblePosition sc.state] else []) ++ w ++
        [Event.depthLine 0] ++
        Event.treeSolveCall sc.state sc.ignore blocks 0 sc.metric :: tail) ++ extra ↔
        Event.unknownWarning ∈ w) := by
    intro extra hextra
    by_cases hp : sc.printState = 1
    · simp [hp, hnotin, hextra]
    · simp [hp, hnotin, hextra]
  have hhead : ∀ extra : List Event,
      (treeSolveCalls ((Event.solving sc.name ::
          (if sc.printState = 1 then [Event.scramblePosition sc.state] else []) ++ w ++
        [Event.depthLine 0] ++
        Event.treeSolveCall sc.state sc.ignore blocks 0 sc.metric :: tail) ++ extra)).head? =
        some (Event.treeSolveCall sc.state sc.ignore blocks 0 sc.metric) := by
    intro extra
    by_cases hp : sc.printState = 1
    · simp [hp, treeSolveCalls_append, treeSolveCalls, hwcalls]
    · simp [hp, treeSolveCalls_append, treeSolveCalls, hwcalls]
  cases hr : searchLoop treeSolve blocks sc (f + 1) 0 0
      (Event.solving sc.name ::
          (if sc.printState = 1 then [Event.scramblePosition sc.state] else []) ++ w ++
        [Event.depthLine 0]) with
  | mk o ended =>
    rw [hr] at htail
    dsimp only at htail
    subst htail
    cases ended with
    | true =>
      refine ⟨_, true, by unfold solveScramble; rw [hw]; dsimp only; rw [hr], ?_, ?_⟩
      · rw [← hwiff]
        exact hmem [Event.blankLine] (by simp)
      · exact hhead [Event.blankLine]
    | false =>
      refine ⟨_, false, by unfold solveScramble; rw [hw]; dsimp only; rw [hr], ?_, ?_⟩
      · rw [← hwiff]
        simpa using hmem [] (by simp)
      · simpa using hhead []

theorem solveScramble_some (treeSolve : TreeSolve) (blocks : List Block) (sc : ScrambleDef)
    (fuel : Nat) (hvalid : orbitsValid sc.state = true) :
    ∃ r, solveScramble treeSolve blocks sc fuel = some r := by
  obtain ⟨w, hw, _, _⟩ := warningCheck_spec blocks sc.state hvalid
  unfold solveScramble
  rw [hw]
  dsimp only
  cases hr : searchLoop treeSolve blocks sc fuel 0 0
      (Event.solving sc.name ::
          (if sc.printState = 1 then [Event.scramblePosition sc.state] else []) ++ w ++
        [Event.depthLine 0]) with
  | mk o ended =>
    cases ended with
    | true => exact ⟨_, rfl⟩
    | false => exact ⟨_, rfl⟩

theorem solveScrambles_some (treeSolve : TreeSolve) (blocks : List Block) (fuel : Nat)
    (l : List ScrambleDef) (hvalid : ∀ s ∈ l, orbitsValid s.state = true) :
    ∃ r, solveScrambles treeSolve blocks fuel l = some r := by
  induction l with
  | nil => exact ⟨_, rfl⟩
  | cons sc rest ih =>
    obtain ⟨r, hr⟩ := solveScramble_some treeSolve blocks sc fuel
      (hvalid sc (List.mem_cons_self _ _))
    obtain ⟨rs, hrs⟩ := ih (fun s hs => hvalid s (List.mem_cons_of_mem _ hs))
    obtain ⟨o, ended⟩ := r
    obtain ⟨os, endeds⟩ := rs
    rw [solveScrambles]
    by_cases hne : sc.state.length ≠ 0
    · rw [if_pos hne, hr]
      cases ended with
      | true => rw [hrs]; exact ⟨_, rfl⟩
      | false => exact ⟨_, rfl⟩
    · rw [if_neg hne]
      exact ⟨_, rfl⟩

/-- The scramble loop reaches the scramble `sc` once the scrambles before it
have been processed to their end: the trace then goes on with the trace of
`sc`. -/
theorem solveScrambles_reaches (treeSolve : TreeSolve) (blocks : List Block) (fuel : Nat)
    (done rest : List ScrambleDef) (sc : ScrambleDef) (outDone out : List Event)
    (ended : Bool)
    (hdone : solveScrambles treeSolve blocks fuel done = some (outDone, true))
    (hne : ∀ s ∈ done, s.state ≠ []) (hstate : sc.state ≠ [])
    (hsc : solveScramble treeSolve blocks sc fuel = some (out, ended))
    (hrest : ∀ s ∈ rest, orbitsValid s.state = true) :
    ∃ after e, solveScrambles treeSolve blocks fuel (done ++ sc :: rest) =
      some (outDone ++ out ++ after, e) := by
  induction done generalizing outDone with
  | nil =>
    simp only [solveScrambles, Option.some.injEq, Prod.mk.injEq] at hdone
    rw [← hdone.1]
    have hlen : sc.state.length ≠ 0 := by
      intro h
      exact hstate (List.length_eq_zero.1 h)
    rw [List.nil_append, solveScrambles, if_pos hlen, hsc]
    cases ended with
    | false => exact ⟨[], false, by simp⟩
    | true =>
      obtain ⟨⟨os, e⟩, hrs⟩ := solveScrambles_some treeSolve blocks fuel rest hrest
      exact ⟨os, e, by rw [hrs]; simp⟩
  | cons d ds ih =>
    have hlen : d.state.length ≠ 0 := by
      intro h
      exact hne d (List.mem_cons_self _ _) (List.length_eq_zero.1 h)
    rw [solveScrambles, if_pos hlen] at hdone
    rw [List.cons_append, solveScrambles, if_pos hlen]
    cases hd : solveScramble treeSolve blocks d fuel with
    | none => simp [hd] at hdone
    | some r =>
      obtain ⟨o, e⟩ := r
      rw [hd] at hdone
      cases e with
      | false => simp at hdone
      | true =>
        dsimp only at hdone ⊢
        cases hds : solveScrambles treeSolve blocks fuel ds with
        | none => simp [hds] at hdone
        | some rs =>
          obtain ⟨os, es⟩ := rs
          simp only [hds, Option.some.injEq, Prod.mk.injEq] at hdone
          obtain ⟨h1, h2⟩ := hdone
          subst h1 h2
          obtain ⟨after, e2, hres⟩ := ih os hds
            (fun s hs => hne s (List.mem_cons_of_mem _ hs))
          rw [hres]
          exact ⟨after, e2, by simp⟩

/-- C6: for every scramble `ksolveMain` gets to (the scrambles before it
processed to their end), as soon as one iteration of its search loop is run:
the warning is printed for it exactly when the block set is non-empty and some
orbit of its state has the entry -1 at a slot below its size; with or without
the warning the search is started, the first `treeSolve` call for the scramble
being the one at depth 0 with the scramble's arguments. -/
theorem unknownWarning_iff (treeSolve : TreeSolve) (loaded : Loaded) (fuel : Nat)
    (done rest : List ScrambleDef) (sc : ScrambleDef) (outDone : List Event)
    (hgod : loaded.godMetric = none)
    (hscr : loaded.scrambles = done ++ sc :: rest)
    (hvalid : ∀ s ∈ loaded.scrambles, orbitsValid s.state = true)
    (hdone : solveScrambles treeSolve loaded.blocks fuel done = some (outDone, true))
    (hne : ∀ s ∈ done, s.state ≠ []) (hstate : sc.state ≠ []) (hfuel : 0 < fuel) :
    ∃ out status after,
      ksolveMain treeSolve loaded fuel 3 =
        some (status, [Event.rulesetLoaded, Event.generatedMoves, Event.pruningTablesLoaded,
          Event.scramblesLoaded] ++ outDone ++ out ++ after) ∧
      (∃ ended, solveScramble treeSolve loaded.blocks sc fuel = some (out, ended)) ∧
      (Event.unknownWarning ∈ out ↔ loaded.blocks ≠ [] ∧
        ∃ e ∈ sc.state, ∃ i : Nat, (i : Int) < e.2.size ∧
          e.2.permutation[i]? = some (-1)) ∧
      (treeSolveCalls out).head? =
        some (Event.treeSolveCall sc.state sc.ignore loaded.blocks 0 sc.metric) := by
  have hvsc : orbitsValid sc.state = true := hvalid sc (by rw [hscr]; simp)
  have hvrest : ∀ s ∈ rest, orbitsValid s.state = true :=
    fun s hs => hvalid s (by rw [hscr]; simp [hs])
  obtain ⟨out, ended, hsc, hwarn, hcall⟩ :=
    solveScramble_spec treeSolve loaded.blocks sc fuel hvsc hfuel
  obtain ⟨after, e, hall⟩ := solveScrambles_reaches treeSolve loaded.blocks fuel done rest sc
    outDone out ended hdone hne hstate hsc hvrest
  have h3 : ¬ ((3 : Int) ≠ 3) := by simp
  cases e with
  | false =>
    refine ⟨out, none, after, ?_, ⟨ended, hsc⟩, hwarn, hcall⟩
    unfold ksolveMain
    rw [if_neg h3, hgod, hscr, hall]
    simp
  | true =>
    refine ⟨out, some EXIT_SUCCESS, after ++ [Event.time], ?_, ⟨ended, hsc⟩, hwarn, hcall⟩
    unfold ksolveMain
    rw [if_neg h3, hgod, hscr, hall]
    simp

/-- Witness of C6: a scramble with an unknown entry, the first of two,
searched with one block. -/
theorem unknownWarning_iff_witness :
    ∃ out status after,
      ksolveMain (fun _ _ _ d _ => decide (1 ≤ d))
          ⟨[[("A", [1, 2])]], none,
            [⟨"s", [("A", ⟨3, [1, -1, 3], [0, 0, 0]⟩)], [], 3, 0, 0, 0⟩,
              ⟨"t", [("A", ⟨3, [1, 2, 3], [0, 0, 0]⟩)], [], 3, 0, 0, 0⟩]⟩ 4 3 =
        some (status, [Event.rulesetLoaded, Event.generatedMoves, Event.pruningTablesLoaded,
          Event.scramblesLoaded] ++ [] ++ out ++ after) ∧
      (∃ ended, solveScramble (fun _ _ _ d _ => decide (1 ≤ d)) [[("A", [1, 2])]]
        ⟨"s", [("A", ⟨3, [1, -1, 3], [0, 0, 0]⟩)], [], 3, 0, 0, 0⟩ 4 = some (out, ended)) ∧
      (Event.unknownWarning ∈ out ↔ [[("A", [1, 2])]] ≠ ([] : List Block) ∧
        ∃ e ∈ [("A", (⟨3, [1, -1, 3], [0, 0, 0]⟩ : PieceSet))], ∃ i : Nat,
          (i : Int) < e.2.size ∧ e.2.permutation[i]? = some (-1)) ∧
      (treeSolveCalls out).head? =
        some (Event.treeSolveCall [("A", ⟨3, [1, -1, 3], [0, 0, 0]⟩)] []
          [[("A", [1, 2])]] 0 0) :=
  unknownWarning_iff (fun _ _ _ d _ => decide (1 ≤ d))
    ⟨[[("A", [1, 2])]], none,
      [⟨"s", [("A", ⟨3, [1, -1, 3], [0, 0, 0]⟩)], [], 3, 0, 0, 0⟩,
        ⟨"t", [("A", ⟨3, [1, 2, 3], [0, 0, 0]⟩)], [], 3, 0, 0, 0⟩]⟩ 4
    [] [⟨"t", [("A", ⟨3, [1, 2, 3], [0, 0, 0]⟩)], [], 3, 0, 0, 0⟩]
    ⟨"s", [("A", ⟨3, [1, -1, 3], [0, 0, 0]⟩)], [], 3, 0, 0, 0⟩ []
    rfl rfl (by decide) rfl (by simp) (by decide) (by decide)

/-- C7, what the code does: with one argument (`argc = 1`) `ksolveMain` prints
the usage text, loads nothing and returns `EXIT_FAILURE`, but `main` drops that
value and returns 0. -/
theorem main_wrong_argc_exit_status (treeSolve : TreeSolve) (loaded : Loaded) (fuel : Nat) :
    ksolveMain treeSolve loaded fuel 1 = some (some EXIT_FAILURE, [Event.usage]) ∧
      main treeSolve loaded fuel 1 = some (some 0, [Event.usage]) ∧ EXIT_FAILURE ≠ 0 := by
  refine ⟨rfl, rfl, by decide⟩

/-! ## The disturbed set and `compose` -/

theorem isBijection_length (perm : List Int) (n : Nat) (h : isBijection perm n) :
    perm.length = n := by
  have := h.length_eq
  simpa using this

theorem isBijection_nodup (perm : List Int) (n : Nat) (h : isBijection perm n) :
    perm.Nodup := by
  unfold isBijection at h
  rw [h.nodup_iff]
  refine List.Nodup.map ?_ (List.nodup_range' 1 n)
  intro a b hab
  exact Int.ofNat.inj hab

theorem isBijection_bounds (perm : List Int) (n : Nat) (h : isBijection perm n) (x : Int)
    (hx : x ∈ perm) : 1 ≤ x ∧ x ≤ n := by
  unfold isBijection at h
  rw [h.mem_iff, List.mem_map] at hx
  obtain ⟨a, ha, rfl⟩ := hx
  rw [List.mem_range'_1] at ha
  show 1 ≤ ((a : Nat) : Int) ∧ ((a : Nat) : Int) ≤ n
  omega

theorem slotOf_of_getElem? (l : List Int) (hnd : l.Nodup) (j : Nat) (p : Int)
    (h : l[j]? = some p) : slotOf l p = some j := by
  obtain ⟨hj, hget⟩ := List.getElem?_eq_some.1 h
  unfold slotOf
  rw [if_pos (List.getElem?_mem h), ← hget, List.indexOf_getElem hnd j hj]

theorem getElem?_of_slotOf (l : List Int) (j : Nat) (p : Int) (h : slotOf l p = some j) :
    l[j]? = some p := by
  unfold slotOf at h
  by_cases hp : p ∈ l
  · rw [if_pos hp] at h
    rw [← Option.some.inj h]
    exact List.getElem?_indexOf hp
  · rw [if_neg hp] at h
    exact absurd h (by simp)

theorem nodup_getElem?_inj (l : List Int) (hnd : l.Nodup) (a b : Nat) (v : Int)
    (ha : l[a]? = some v) (hb : l[b]? = some v) : a = b := by
  obtain ⟨ha1, ha2⟩ := List.getElem?_eq_some.1 ha
  obtain ⟨hb1, hb2⟩ := List.getElem?_eq_some.1 hb
  exact (List.Nodup.getElem_inj_iff hnd).1 (ha2.trans hb2.symm)

theorem composeSet_permutation_getElem? (K : Int) (ss ms : PieceSet) (i : Nat) (m : Int)
    (hm : ms.permutation[i]? = some m) (h1 : 1 ≤ m) :
    (composeSet K ss ms).permutation[i]? =
      some (ss.permutation.getD (m - 1).toNat (-1)) := by
  have hne : m ≠ -1 := by omega
  have hlt : ¬ m - 1 < 0 := by omega
  simp only [composeSet, List.getElem?_map, hm, Option.map_some', readAt, if_neg hne,
    if_neg hlt]

theorem composeSet_orientation_getElem? (K : Int) (ss ms : PieceSet) (i : Nat) (m o : Int)
    (hm : ms.permutation[i]? = some m) (ho : ms.orientation[i]? = some o) (h1 : 1 ≤ m) :
    (composeSet K ss ms).orientation[i]? =
      some ((ss.orientation.getD (m - 1).toNat 0 + o) % K) := by
  have hlt : ¬ m - 1 < 0 := by omega
  simp only [composeSet, List.getElem?_zipWith, hm, ho, readAt, if_neg hlt]

theorem getD_of_getElem? (l : List Int) (j : Nat) (v d : Int) (h : l[j]? = some v) :
    l.getD j d = v := by
  rw [List.getD_eq_getElem?_getD, h]
  rfl

theorem composeSet_permutation_nodup (K : Int) (n : Nat) (ss ms : PieceSet)
    (hsp : isBijection ss.permutation n) (hmp : isBijection ms.permutation n) :
    (composeSet K ss ms).permutation.Nodup := by
  have hlen := isBijection_length _ _ hsp
  have hnd := isBijection_nodup _ _ hsp
  refine List.Nodup.map_on ?_ (isBijection_nodup _ _ hmp)
  intro x hx y hy hxy
  obtain ⟨hx1, hx2⟩ := isBijection_bounds _ _ hmp x hx
  obtain ⟨hy1, hy2⟩ := isBijection_bounds _ _ hmp y hy
  have hxn : x ≠ -1 := by omega
  have hyn : y ≠ -1 := by omega
  have hxl : ¬ x - 1 < 0 := by omega
  have hyl : ¬ y - 1 < 0 := by omega
  have hxi : (x - 1).toNat < ss.permutation.length := by omega
  have hyi : (y - 1).toNat < ss.permutation.length := by omega
  simp only [readAt, if_neg hxn, if_neg hyn, if_neg hxl, if_neg hyl,
    List.getD_eq_getElem _ _ hxi, List.getD_eq_getElem _ _ hyi] at hxy
  have := (List.Nodup.getElem_inj_iff hnd).1 hxy
  omega

theorem composeSet_permutation_mem (K : Int) (n : Nat) (ss ms : PieceSet)
    (hsp : isBijection ss.permutation n) (hmp : isBijection ms.permutation n) (p : Int)
    (hp : p ∈ (composeSet K ss ms).permutation) : p ∈ ss.permutation := by
  have hlen := isBijection_length _ _ hsp
  simp only [composeSet, List.mem_map] at hp
  obtain ⟨x, hx, hfx⟩ := hp
  obtain ⟨hx1, hx2⟩ := isBijection_bounds _ _ hmp x hx
  have hxn : x ≠ -1 := by omega
  have hxl : ¬ x - 1 < 0 := by omega
  have hxi : (x - 1).toNat < ss.permutation.length := by omega
  simp only [readAt, if_neg hxn, if_neg hxl, List.getD_eq_getElem _ _ hxi] at hfx
  rw [← hfx]
  exact List.getElem_mem _

theorem add_emod_eq_iff (K t o : Int) (ht1 : 0 ≤ t) (ht2 : t < K) (ho1 : 0 ≤ o)
    (ho2 : o < K) : (t + o) % K = t ↔ o = 0 := by
  constructor
  · intro h
    by_cases hlt : t + o < K
    · rw [Int.emod_eq_of_lt (by omega) hlt] at h
      omega
    · have h2 : (t + o) % K = t + o - K := by
        rw [Int.emod_eq_sub_self_emod, Int.emod_eq_of_lt (by omega) (by omega)]
      omega
  · intro h
    rw [h, Int.add_zero, Int.emod_eq_of_lt ht1 ht2]

/-- On one orbit: a piece sits in a slot the move disturbs exactly when its
slot or its orientation differs between the orbit and its composition with the
move. -/
theorem composeSet_changed (K : Int) (n : Nat) (ss ms : PieceSet)
    (hsp : isBijection ss.permutation n) (hso : orientationsIn ss.orientation n K)
    (hmp : isBijection ms.permutation n) (hmo : orientationsIn ms.orientation n K)
    (p : Int) :
    (∃ i : Nat, i < n ∧ ss.permutation[i]? = some p ∧
      (ms.permutation[i]? ≠ some ((i : Int) + 1) ∨ ms.orientation[i]? ≠ some 0)) ↔
      pieceChanged ss (composeSet K ss ms) p := by
  have hlsp := isBijection_length _ _ hsp
  have hlmp := isBijection_length _ _ hmp
  have hnsp := isBijection_nodup _ _ hsp
  have hnR := composeSet_permutation_nodup K n ss ms hsp hmp
  by_cases hp : p ∈ ss.permutation
  · obtain ⟨j, hj, hget⟩ := List.getElem_of_mem hp
    have hjn : j < n := by omega
    have hjq : ss.permutation[j]? = some p := by
      rw [List.getElem?_eq_getElem hj, hget]
    have hslot : slotOf ss.permutation p = some j := slotOf_of_getElem? _ hnsp j p hjq
    have hjm : j < ms.permutation.length := by omega
    have hjo : j < ms.orientation.length := by rw [hmo.1]; exact hjn
    have hjs : j < ss.orientation.length := by rw [hso.1]; exact hjn
    have hmq : ms.permutation[j]? = some ms.permutation[j] := List.getElem?_eq_getElem hjm
    have hoq : ms.orientation[j]? = some ms.orientation[j] := List.getElem?_eq_getElem hjo
    have hsq : ss.orientation[j]? = some ss.orientation[j] := List.getElem?_eq_getElem hjs
    obtain ⟨hm1, hm2⟩ := isBijection_bounds _ _ hmp _ (List.getElem_mem hjm)
    obtain ⟨ho1, ho2⟩ := hmo.2 _ (List.getElem_mem hjo)
    obtain ⟨ht1, ht2⟩ := hso.2 _ (List.getElem_mem hjs)
    have hRp := composeSet_permutation_getElem? K ss ms j _ hmq hm1
    have hRo := composeSet_orientation_getElem? K ss ms j _ _ hmq hoq hm1
    have hlhs : (∃ i : Nat, i < n ∧ ss.permutation[i]? = some p ∧
        (ms.permutation[i]? ≠ some ((i : Int) + 1) ∨ ms.orientation[i]? ≠ some 0)) ↔
        (ms.permutation[j] ≠ (j : Int) + 1 ∨ ms.orientation[j] ≠ 0) := by
      constructor
      · rintro ⟨i, _, hi2, hi3⟩
        have hij := nodup_getElem?_inj _ hnsp i j p hi2 hjq
        subst hij
        rw [hmq, hoq] at hi3
        simpa using hi3
      · intro h
        refine ⟨j, hjn, hjq, ?_⟩
        rw [hmq, hoq]
        simpa using h
    have hors : orientationOf ss p = some ss.orientation[j] := by
      unfold orientationOf
      rw [hslot]
      exact hsq
    rw [hlhs]
    unfold pieceChanged
    rw [hslot, hors]
    by_cases hmj : ms.permutation[j] = (j : Int) + 1
    · have hidx : (ms.permutation[j] - 1).toNat = j := by omega
      rw [hidx] at hRp hRo
      rw [getD_of_getElem? _ j p (-1) hjq] at hRp
      rw [getD_of_getElem? _ j _ 0 hsq] at hRo
      have hslotR : slotOf (composeSet K ss ms).permutation p = some j :=
        slotOf_of_getElem? _ hnR j p hRp
      have horR : orientationOf (composeSet K ss ms) p =
          some ((ss.orientation[j] + ms.orientation[j]) % K) := by
        unfold orientationOf
        rw [hslotR]
        exact hRo
      rw [hslotR, horR]
      have hiff := add_emod_eq_iff K _ _ ht1 ht2 ho1 ho2
      constructor
      · rintro (h | h)
        · exact absurd hmj h
        · right
          intro heq
          exact h (hiff.1 (Option.some.inj heq))
      · rintro (h | h)
        · exact absurd rfl h
        · right
          intro h0
          exact h (by rw [hiff.2 h0])
    · constructor
      · intro _
        left
        intro hs
        have hRj := getElem?_of_slotOf _ j p hs
        rw [hRp] at hRj
        have hidx : (ms.permutation[j] - 1).toNat < ss.permutation.length := by omega
        have hq : ss.permutation[(ms.permutation[j] - 1).toNat]? = some p := by
          rw [List.getElem?_eq_getElem hidx, ← List.getD_eq_getElem _ (-1) hidx]
          exact hRj
        have := nodup_getElem?_inj _ hnsp _ j p hq hjq
        omega
      · intro _
        exact Or.inl hmj
  · have hl : ¬ ∃ i : Nat, i < n ∧ ss.permutation[i]? = some p ∧
        (ms.permutation[i]? ≠ some ((i : Int) + 1) ∨ ms.orientation[i]? ≠ some 0) := by
      rintro ⟨i, _, hi2, _⟩
      exact hp (List.getElem?_mem hi2)
    have hpR : p ∉ (composeSet K ss ms).permutation :=
      fun h => hp (composeSet_permutation_mem K n ss ms hsp hmp p h)
    have hr : ¬ pieceChanged ss (composeSet K ss ms) p := by
      unfold pieceChanged orientationOf slotOf
      rw [if_neg hp, if_neg hpR]
      simp
    exact ⟨fun h => absurd h hl, fun h => absurd h hr⟩

theorem lookup_compose (k : String → Int) (state move : Position) (L : String)
    (ss ms : PieceSet) (hs : lookup L state = some ss) (hm : lookup L move = some ms) :
    lookup L (compose k state move) = some (composeSet (k L) ss ms) := by
  induction state with
  | nil => simp [lookup] at hs
  | cons e rest ih =>
    obtain ⟨K, v⟩ := e
    by_cases hK : K = L
    · subst hK
      simp only [lookup, if_true, Option.some.injEq] at hs
      subst hs
      simp [compose, hm, lookup]
    · simp only [lookup, if_neg hK] at hs
      have h1 := ih hs
      unfold compose at h1 ⊢
      rw [List.map_cons]
      cases hl : lookup K move with
      | none => simp only [lookup, if_neg hK]; exact h1
      | some w => simp only [lookup, if_neg hK]; exact h1

/-- C9: for an orbit `L` of size `n` whose state and move permutations are
bijections on `1..n` with orientations in `[0, k)`, the pieces `blocklegal`
records as disturbed in `changed[L]` are exactly the pieces whose slot or
orientation differs between the state and `compose(state, move)`. -/
theorem changed_iff_pieceChanged (k : String → Int) (n : Nat) (state move : Position)
    (L : String) (ss ms : PieceSet)
    (hkeys : (move.map Prod.fst).Nodup) (hvalid : slotsValid state move = true)
    (hm : lookup L move = some ms) (hs : lookup L state = some ss)
    (hsize : ms.size = n)
    (hsp : isBijection ss.permutation n) (hso : orientationsIn ss.orientation n (k L))
    (hmp : isBijection ms.permutation n) (hmo : orientationsIn ms.orientation n (k L)) :
    ∃ changed composed, computeChanged state move = some (changed, state) ∧
      lookup L (compose k state move) = some composed ∧
      ∀ p, p ∈ changed.pieces L ↔ pieceChanged ss composed p := by
  obtain ⟨c, hc, hpieces⟩ := computeChanged_valid state move hkeys hvalid
  refine ⟨c, composeSet (k L) ss ms, hc, lookup_compose k state move L ss ms hs hm, ?_⟩
  intro p
  rw [hpieces L p, ← composeSet_changed (k L) n ss ms hsp hso hmp hmo p]
  unfold disturbed
  constructor
  · rintro ⟨ms2, ss2, hm2, hs2, i, hi, hp, hd⟩
    rw [hm] at hm2
    rw [hs] at hs2
    obtain rfl := Option.some.inj hm2
    obtain rfl := Option.some.inj hs2
    exact ⟨i, by omega, hp, hd⟩
  · rintro ⟨i, hi, hp, hd⟩
    exact ⟨ms, ss, hm, hs, i, by omega, hp, hd⟩

/-- Witness of C9: one orbit of three pieces with orientation modulus 3, the
move that swaps the first two slots and twists the third. -/
theorem changed_iff_pieceChanged_witness :
    ∃ changed composed,
      computeChanged [("A", ⟨3, [2, 3, 1], [0, 1, 2]⟩)] [("A", ⟨3, [2, 1, 3], [0, 0, 1]⟩)] =
        some (changed, [("A", ⟨3, [2, 3, 1], [0, 1, 2]⟩)]) ∧
      lookup "A" (compose (fun _ => 3) [("A", ⟨3, [2, 3, 1], [0, 1, 2]⟩)]
        [("A", ⟨3, [2, 1, 3], [0, 0, 1]⟩)]) = some composed ∧
      ∀ p, p ∈ changed.pieces "A" ↔
        pieceChanged ⟨3, [2, 3, 1], [0, 1, 2]⟩ composed p :=
  changed_iff_pieceChanged (fun _ => 3) 3 [("A", ⟨3, [2, 3, 1], [0, 1, 2]⟩)]
    [("A", ⟨3, [2, 1, 3], [0, 0, 1]⟩)] "A" ⟨3, [2, 3, 1], [0, 1, 2]⟩ ⟨3, [2, 1, 3], [0, 0, 1]⟩
    (by decide) (by decide) (by decide) (by decide) (by decide)
    (by unfold isBijection; decide) (by unfold orientationsIn; decide)
    (by unfold isBijection; decide) (by unfold orientationsIn; decide)

end ksolve
